import Mathlib

/-!
# go-router: route matching, request context and handler pipeline

A shallow embedding of `router.go`, `context.go`, `response.go`, `error.go`
and `ctype.go`.  Go strings are Lean strings (valid Unicode text), slices are
lists, maps are association lists with unique keys, and a run-time panic is
an `Except.error`.  The part of Go's `regexp` package that the router relies
on is modelled in the namespace `regexp`.
-/

namespace GoRouter

/-- A run-time panic of the Go program. -/
inductive Panic where
  | indexOutOfRange
  | regexpCompile (msg : String)
  | typeAssertion
  | message (msg : String)
  | invalidWriteHeaderCode (code : Int)
  deriving DecidableEq

/-! ## Go's `regexp` package (external library)

Leftmost-first (backtracking order) matching with capture groups for the
fragment: literals, `.`, `^`, `$`, backslash escapes of punctuation,
`\d \w \s \D \W \S`, `\n \t \r \f \v`, bracket classes with negation and
ranges, capturing groups and `(?:...)`, alternation, `* + ?`, counted
repetition `{n}`, `{n,}`, `{n,m}`, and the lazy variants of all repetitions.
A `{` that does not start a counted repetition is a literal, as in Go; a
count with a leading zero is not one.
Patterns using anything else are rejected by `compile`. -/

namespace regexp

/-- Abstract syntax of a parsed regular expression. -/
inductive Regex where
  | empty
  | char (c : Char)
  | any
  | cls (neg : Bool) (ranges : List (Char × Char))
  | bol
  | eol
  | seq (a b : Regex)
  | alt (a b : Regex)
  | rept (min : Nat) (max : Option Nat) (greedy : Bool) (r : Regex)
  | group (idx : Nat) (r : Regex)
  deriving DecidableEq

/-- Concatenation of a list of expressions. -/
def mkSeq : List Regex → Regex
  | [] => .empty
  | r :: rs => .seq r (mkSeq rs)

/-- Alternation of a non-empty list of expressions, first alternative preferred. -/
def mkAlt : List Regex → Regex
  | [] => .empty
  | [r] => r
  | r :: rs => .alt r (mkAlt rs)

/-- One open group (or the top level) during parsing. -/
structure Frame where
  cap : Option Nat
  alts : List Regex
  items : List Regex
  deriving DecidableEq

/-- Lexical mode of the parser. -/
inductive Mode where
  | normal
  | rep (lazyOk : Bool)
  | esc
  | grpOpen
  | grpFlag
  | clsOpen
  | clsFirst (neg : Bool)
  | clsBody (neg : Bool) (rs : List (Char × Char)) (last : Option Char)
  | clsDash (neg : Bool) (rs : List (Char × Char)) (lo : Char)
  | clsEsc (neg : Bool) (rs : List (Char × Char))
  | brace (prevRep : Bool) (raw : List Char) (lo : Option Nat) (comma : Bool) (hi : Option Nat)
  deriving DecidableEq

/-- Parser state: the innermost open frame, the enclosing frames, the number
of capture groups opened so far and the lexical mode. -/
structure PState where
  top : Frame
  parents : List Frame
  ncap : Nat
  mode : Mode
  deriving DecidableEq

def PState.init : PState := ⟨⟨none, [], []⟩, [], 0, .normal⟩

/-- Append an item to the current alternative. -/
def PState.push (st : PState) (r : Regex) : PState :=
  { st with top := { st.top with items := r :: st.top.items }, mode := .normal }

/-- The expression denoted by a finished frame. -/
def closeFrame (f : Frame) : Regex :=
  let body := mkAlt ((mkSeq f.items.reverse :: f.alts).reverse)
  match f.cap with
  | some k => .group k body
  | none => body

/-- Apply a repetition operator to the last item of the current alternative. -/
def applyRep (st : PState) (prevRep : Bool) (mn : Nat) (mx : Option Nat) : Except String PState :=
  if prevRep then .error "invalid nested repetition operator"
  else match st.top.items with
    | [] => .error "missing argument to repetition operator"
    | r :: rs => .ok { st with top := { st.top with items := .rept mn mx true r :: rs }, mode := .rep true }

/-- Turn the repetition just parsed into its lazy variant. -/
def makeLazy (st : PState) : Except String PState :=
  match st.top.items with
  | .rept mn mx _ r :: rs =>
      .ok { st with top := { st.top with items := .rept mn mx false r :: rs }, mode := .rep false }
  | _ => .error "missing argument to repetition operator"

def isAlnum (c : Char) : Bool :=
  (decide ('0' ≤ c) && decide (c ≤ '9')) || (decide ('A' ≤ c) && decide (c ≤ 'Z'))
    || (decide ('a' ≤ c) && decide (c ≤ 'z'))

/-- Go: a backslash followed by ASCII punctuation stands for that character. -/
def isPunct (c : Char) : Bool := decide (c.toNat < 128) && !isAlnum c

def digitRanges : List (Char × Char) := [('0', '9')]
def wordRanges : List (Char × Char) := [('0', '9'), ('A', 'Z'), ('_', '_'), ('a', 'z')]
def spaceRanges : List (Char × Char) := [('\t', '\n'), ('\x0c', '\r'), (' ', ' ')]

/-- The control character written `\n`, `\t`, ... -/
def controlEscape (c : Char) : Option Char :=
  if c = 'n' then some '\n' else if c = 't' then some '\t' else if c = 'r' then some '\r'
  else if c = 'f' then some '\x0c' else if c = 'v' then some '\x0b' else if c = 'a' then some '\x07'
  else none

/-- The class written `\d`, `\w`, `\s`. -/
def perlClass (c : Char) : Option (List (Char × Char)) :=
  if c = 'd' then some digitRanges else if c = 'w' then some wordRanges
  else if c = 's' then some spaceRanges else none

/-- The negated class written `\D`, `\W`, `\S`. -/
def perlNegClass (c : Char) : Option (List (Char × Char)) :=
  if c = 'D' then some digitRanges else if c = 'W' then some wordRanges
  else if c = 'S' then some spaceRanges else none

/-- A character read outside classes and escapes; `prevRep` tells whether the
previous token was a repetition operator. -/
def stepNormal (st : PState) (prevRep : Bool) (c : Char) : Except String PState :=
  if c = '\\' then .ok { st with mode := .esc }
  else if c = '(' then
    .ok { top := ⟨some (st.ncap + 1), [], []⟩, parents := st.top :: st.parents,
          ncap := st.ncap + 1, mode := .grpOpen }
  else if c = ')' then
    match st.parents with
    | [] => .error "unexpected )"
    | p :: ps =>
        .ok { top := { p with items := closeFrame st.top :: p.items }, parents := ps,
              ncap := st.ncap, mode := .normal }
  else if c = '|' then
    .ok { st with top := { st.top with alts := mkSeq st.top.items.reverse :: st.top.alts, items := [] },
                  mode := .normal }
  else if c = '[' then .ok { st with mode := .clsOpen }
  else if c = '.' then .ok (st.push .any)
  else if c = '^' then .ok (st.push .bol)
  else if c = '$' then .ok (st.push .eol)
  else if c = '*' then applyRep st prevRep 0 none
  else if c = '+' then applyRep st prevRep 1 none
  else if c = '?' then applyRep st prevRep 0 (some 1)
  else if c = '{' then .ok { st with mode := .brace prevRep [] none false none }
  else .ok (st.push (.char c))

/-- Push the characters of an abandoned counted repetition as literals. -/
def flushBrace (st : PState) (raw : List Char) : PState :=
  raw.reverse.foldl (fun s d => s.push (.char d)) (st.push (.char '{'))

def digitVal (c : Char) : Nat := c.toNat - '0'.toNat

/-- A character read inside `{...}`. -/
def stepBrace (st : PState) (prevRep : Bool) (raw : List Char) (lo : Option Nat) (comma : Bool)
    (hi : Option Nat) (c : Char) : Except String PState :=
  if c.isDigit then
    if (if comma then hi else lo) = some 0 then stepNormal (flushBrace st raw) false c
    else if comma then
      .ok { st with mode := .brace prevRep (c :: raw) lo comma (some (hi.getD 0 * 10 + digitVal c)) }
    else
      .ok { st with mode := .brace prevRep (c :: raw) (some (lo.getD 0 * 10 + digitVal c)) comma hi }
  else if c = ',' ∧ comma = false ∧ lo.isSome then
    .ok { st with mode := .brace prevRep (c :: raw) lo true hi }
  else if c = '}' ∧ lo.isSome then
    let mn := lo.getD 0
    let mx : Option Nat := if comma then hi else some mn
    if mn > 1000 ∨ mx.getD 0 > 1000 ∨ (mx.isSome ∧ mx.getD 0 < mn) then .error "invalid repeat count"
    else applyRep st prevRep mn mx
  else stepNormal (flushBrace st raw) false c

/-- A character read inside a bracket class, after the first item. -/
def stepClsBody (st : PState) (neg : Bool) (rs : List (Char × Char)) (last : Option Char)
    (c : Char) : Except String PState :=
  if c = ']' then .ok (st.push (.cls neg rs.reverse))
  else if c = '\\' then .ok { st with mode := .clsEsc neg rs }
  else if c = '[' then .error "bracket inside a class is outside the modelled fragment"
  else if c = '-' then
    match last with
    | some lo => .ok { st with mode := .clsDash neg rs lo }
    | none => .ok { st with mode := .clsBody neg (('-', '-') :: rs) none }
  else .ok { st with mode := .clsBody neg ((c, c) :: rs) (some c) }

/-- Consume one character of the pattern. -/
def step (st : PState) (c : Char) : Except String PState :=
  match st.mode with
  | .normal => stepNormal st false c
  | .rep lazyOk =>
      if c = '?' ∧ lazyOk = true then makeLazy st else stepNormal st true c
  | .esc =>
      if isPunct c then .ok (st.push (.char c))
      else match controlEscape c with
        | some d => .ok (st.push (.char d))
        | none =>
          match perlClass c with
          | some rs => .ok (st.push (.cls false rs))
          | none =>
            match perlNegClass c with
            | some rs => .ok (st.push (.cls true rs))
            | none => .error "invalid or unsupported escape sequence"
  | .grpOpen => if c = '?' then .ok { st with mode := .grpFlag } else stepNormal st false c
  | .grpFlag =>
      if c = ':' then
        .ok { st with top := { st.top with cap := none }, ncap := st.ncap - 1, mode := .normal }
      else .error "group flags are outside the modelled fragment"
  | .clsOpen =>
      if c = '^' then .ok { st with mode := .clsFirst true }
      else if c = ']' then .ok { st with mode := .clsBody false [(']', ']')] (some ']') }
      else stepClsBody st false [] none c
  | .clsFirst neg =>
      if c = ']' then .ok { st with mode := .clsBody neg [(']', ']')] (some ']') }
      else stepClsBody st neg [] none c
  | .clsBody neg rs last => stepClsBody st neg rs last c
  | .clsDash neg rs lo =>
      if c = ']' then .ok (st.push (.cls neg ((('-', '-') :: rs).reverse)))
      else if c = '\\' ∨ c = '[' then .error "class range end is outside the modelled fragment"
      else if lo ≤ c then .ok { st with mode := .clsBody neg ((lo, c) :: rs) none }
      else .error "invalid character class range"
  | .clsEsc neg rs =>
      if isPunct c then .ok { st with mode := .clsBody neg ((c, c) :: rs) (some c) }
      else match controlEscape c with
        | some d => .ok { st with mode := .clsBody neg ((d, d) :: rs) (some d) }
        | none =>
          match perlClass c with
          | some ps => .ok { st with mode := .clsBody neg (ps.reverse ++ rs) none }
          | none => .error "invalid or unsupported escape sequence in class"
  | .brace prevRep raw lo comma hi => stepBrace st prevRep raw lo comma hi c

/-- Consume a list of characters, stopping at the first error. -/
def run : PState → List Char → Except String PState
  | st, [] => .ok st
  | st, c :: cs =>
    match step st c with
    | .ok st' => run st' cs
    | .error e => .error e

/-- End of pattern: every group and class must be closed. -/
def finish (st : PState) : Except String (Regex × Nat) :=
  let closed (s : PState) : Except String (Regex × Nat) :=
    match s.parents with
    | [] => .ok (closeFrame s.top, s.ncap)
    | _ :: _ => .error "missing closing )"
  match st.mode with
  | .normal => closed st
  | .rep _ => closed st
  | .grpOpen => closed st
  | .brace _ raw _ _ _ => closed (flushBrace st raw)
  | .esc => .error "trailing backslash"
  | .grpFlag => .error "missing closing )"
  | _ => .error "missing closing ]"

/-- A compiled regular expression: its syntax tree and number of capture groups. -/
structure Regexp where
  ast : Regex
  ncap : Nat
  deriving DecidableEq

/-- Model of `regexp.Compile`. -/
def compile (pattern : String) : Except String Regexp :=
  match run PState.init pattern.data with
  | .error e => .error e
  | .ok st =>
    match finish st with
    | .error e => .error e
    | .ok (ast, n) => .ok ⟨ast, n⟩

/-- Matcher state: characters consumed so far, remaining input, capture
groups 1.. (none while a group has not taken part in the match). -/
structure MState where
  pos : Nat
  rest : List Char
  caps : List (Option (List Char))
  deriving DecidableEq

def inRanges (c : Char) (rs : List (Char × Char)) : Bool :=
  rs.any (fun r => decide (r.1 ≤ c) && decide (c ≤ r.2))

/-- Optional iterations of a repetition, in backtracking order.  An iteration
that consumes nothing is dropped. -/
def iterOpt (f : MState → List MState) (greedy : Bool) : Nat → Option Nat → MState → List MState
  | 0, _, s => [s]
  | fuel + 1, mx, s =>
    if mx = some 0 then [s]
    else
      let more := ((f s).filter (fun t => decide (t.rest.length < s.rest.length))).flatMap
        (iterOpt f greedy fuel (mx.map (fun m => m - 1)))
      if greedy then more ++ [s] else s :: more

/-- Mandatory iterations of a repetition followed by `k`. -/
def iterMin (f : MState → List MState) (k : MState → List MState) : Nat → MState → List MState
  | 0, s => k s
  | n + 1, s => (f s).flatMap (iterMin f k n)

/-- All ways `r` can match at the front of the remaining input, most
preferred first (the order in which a backtracking matcher tries them). -/
def matchAll : Regex → MState → List MState
  | .empty, s => [s]
  | .char c, s =>
    match s.rest with
    | d :: cs => if d = c then [{ s with pos := s.pos + 1, rest := cs }] else []
    | [] => []
  | .any, s =>
    match s.rest with
    | d :: cs => if d = '\n' then [] else [{ s with pos := s.pos + 1, rest := cs }]
    | [] => []
  | .cls neg rs, s =>
    match s.rest with
    | d :: cs => if inRanges d rs = neg then [] else [{ s with pos := s.pos + 1, rest := cs }]
    | [] => []
  | .bol, s => if s.pos = 0 then [s] else []
  | .eol, s => if s.rest.isEmpty then [s] else []
  | .seq a b, s => (matchAll a s).flatMap (matchAll b)
  | .alt a b, s => matchAll a s ++ matchAll b s
  | .rept mn mx g r, s =>
    iterMin (matchAll r)
      (fun t => iterOpt (matchAll r) g t.rest.length (mx.map (fun m => m - mn)) t) mn s
  | .group k r, s =>
    (matchAll r s).map (fun t =>
      { t with caps := t.caps.set (k - 1) (some (s.rest.take (s.rest.length - t.rest.length))) })

/-- One match: where it starts, its text, its groups and the input after it. -/
structure Match where
  start : Nat
  text : List Char
  groups : List (Option (List Char))
  after : List Char
  deriving DecidableEq

/-- The preferred match starting exactly at position `pos`, if any. -/
def matchAt (re : Regexp) (pos : Nat) (cs : List Char) : Option Match :=
  match matchAll re.ast ⟨pos, cs, List.replicate re.ncap none⟩ with
  | [] => none
  | s :: _ => some ⟨pos, cs.take (cs.length - s.rest.length), s.caps, s.rest⟩

/-- Leftmost match at or after position `pos`. -/
def search (re : Regexp) : Nat → List Char → Option Match
  | pos, [] => matchAt re pos []
  | pos, c :: cs =>
    match matchAt re pos (c :: cs) with
    | some m => some m
    | none => search re (pos + 1) cs

/-- The strings reported for a match: the whole match, then each group
(the empty string for a group that did not take part). -/
def Match.strings (m : Match) : List String :=
  String.mk m.text :: m.groups.map (fun g => String.mk (g.getD []))

/-- Model of `(*Regexp).FindStringSubmatch`; `none` is Go's nil result. -/
def FindStringSubmatch (re : Regexp) (s : String) : Option (List String) :=
  (search re 0 s.data).map Match.strings

/-- A stretch of the input: one unmatched character or one match. -/
inductive Piece where
  | text (c : Char)
  | matched (m : Match)
  deriving DecidableEq

/-- Successive non-overlapping matches with the unmatched characters between
them.  `skip` counts the characters still covered by the previous match and
`adj` says that the previous match ended here (an empty match is then not
reported, as in Go). -/
def pieces (re : Regexp) : Nat → Nat → Bool → List Char → List Piece
  | pos, _, adj, [] =>
    match matchAt re pos [] with
    | some m => if adj then [] else [.matched m]
    | none => []
  | pos, skip + 1, adj, _ :: cs => pieces re (pos + 1) skip adj cs
  | pos, 0, adj, c :: cs =>
    match matchAt re pos (c :: cs) with
    | none => .text c :: pieces re (pos + 1) 0 false cs
    | some m =>
      if m.text.isEmpty then
        if adj then .text c :: pieces re (pos + 1) 0 false cs
        else .matched m :: .text c :: pieces re (pos + 1) 0 false cs
      else .matched m :: pieces re (pos + 1) (m.text.length - 1) true cs

/-- Model of `(*Regexp).FindAllStringSubmatch(s, -1)`. -/
def FindAllStringSubmatch (re : Regexp) (s : String) : List (List String) :=
  (pieces re 0 0 false s.data).filterMap (fun p =>
    match p with
    | .text _ => none
    | .matched m => some m.strings)

/-- Model of `(*Regexp).ReplaceAllString` for a replacement without `$`,
which Go inserts literally. -/
def ReplaceAllString (re : Regexp) (src repl : String) : String :=
  String.mk ((pieces re 0 0 false src.data).flatMap (fun p =>
    match p with
    | .text c => [c]
    | .matched _ => repl.data))

end regexp

/-! ## Go values, maps and strings -/

/-- The result of `reflect.ValueOf(v).Kind()`. -/
inductive Kind where
  | Invalid | Bool | Int | Float64 | String | Map | Struct | Array | Slice | Ptr | Func | Chan
  deriving DecidableEq

/-- A value held in an `interface{}`. -/
inductive GoValue where
  | nil
  | bool (b : Bool)
  | int (n : Int)
  | float (mantissa exponent : Int)
  | str (s : String)
  | map (entries : List (String × GoValue))
  | struct (fields : List (String × GoValue))
  | array (elems : List GoValue)
  | slice (elems : List GoValue)
  | ptr (target : GoValue)
  | func
  | chan

def GoValue.kind : GoValue → Kind
  | .nil => .Invalid
  | .bool _ => .Bool
  | .int _ => .Int
  | .float _ _ => .Float64
  | .str _ => .String
  | .map _ => .Map
  | .struct _ => .Struct
  | .array _ => .Array
  | .slice _ => .Slice
  | .ptr _ => .Ptr
  | .func => .Func
  | .chan => .Chan

/-- Assignment `m[k] = v` on a map kept as an association list with unique keys. -/
def mapSet {β : Type} : List (String × β) → String → β → List (String × β)
  | [], k, v => [(k, v)]
  | (k', v') :: rest, k, v => if k' = k then (k, v) :: rest else (k', v') :: mapSet rest k v

/-- Lookup `m[k]` with the comma-ok result as an option. -/
def mapGet {β : Type} : List (String × β) → String → Option β
  | [], _ => none
  | (k', v') :: rest, k => if k' = k then some v' else mapGet rest k

/-- Model of `strings.TrimSuffix`. -/
def TrimSuffix (s suffix : String) : String :=
  if suffix.data.isSuffixOf s.data then String.mk (s.data.take (s.data.length - suffix.data.length))
  else s

/-- Model of `strings.TrimPrefix`. -/
def TrimPrefix (s pre : String) : String :=
  if pre.data.isPrefixOf s.data then String.mk (s.data.drop pre.data.length) else s

/-- Model of `http.Header`: canonical key to its list of values. -/
abbrev Header := List (String × List String)

/-- Model of `Header.Get`: the first value of the key, or the empty string. -/
def Header.Get (h : Header) (key : String) : String :=
  match mapGet h key with
  | some (v :: _) => v
  | _ => ""

/-- Model of `Header.Add`: append a value to the values of the key. -/
def Header.Add (h : Header) (key value : String) : Header :=
  mapSet h key ((mapGet h key).getD [] ++ [value])

/-- The serializers of `encoding/json` and `fmt` (external libraries).
`jsonUnmarshal body target` is the target after the call, which may have
been written in part when the call fails, and the error (none for nil). -/
structure Encoders where
  jsonMarshal : GoValue → Except String String
  jsonUnmarshal : String → GoValue → GoValue × Option String
  sprintV : GoValue → String

/-! ## ctype.go -/

def ContentType : List (String × String) :=
  [("JSON", "application/json"), ("text", "text/plain"), ("formData", "multipart/form-data"),
   ("wwwForm", "application/x-www-form-urlencoded")]

/-- Indexing the `ContentType` map; a missing key yields the empty string. -/
def contentTypeOf (key : String) : String := (mapGet ContentType key).getD ""

/-! ## error.go -/

abbrev ErrorPayload := Option (List (String × GoValue))

structure HTTPError where
  Message : String
  Code : Int
  Payload : ErrorPayload

def jsonSerialize (enc : Encoders) (data : GoValue) : String × Option String :=
  match enc.jsonMarshal data with
  | .error e => ("", some e)
  | .ok json => (json, none)

def textSerialize (enc : Encoders) (data : GoValue) : String × Option String :=
  (enc.sprintV data, none)

def HTTPError.GetResponseData (enc : Encoders) (httpError : HTTPError) : String :=
  let res : List (String × GoValue) :=
    [("statusCode", .int httpError.Code), ("error", .str httpError.Message)]
  let res := match httpError.Payload with
    | some payload => mapSet res "payload" (.map payload)
    | none => res
  (jsonSerialize enc (.map res)).1

def createError (message : String) (status : Int) (payload : ErrorPayload) : HTTPError :=
  { Message := message, Code := status, Payload := payload }

def errorMessage (message : String) (msg : List String) : String :=
  match msg with
  | m :: _ => m
  | [] => message

def BadRequestError (payload : ErrorPayload) (msg : List String) : HTTPError :=
  createError (errorMessage "Bad Request" msg) 400 payload

def UnauthorizedError (payload : ErrorPayload) (msg : List String) : HTTPError :=
  createError (errorMessage "Unauthorized" msg) 401 payload

def NotFoundError (msg : List String) : HTTPError :=
  createError (errorMessage "Not Found" msg) 404 none

def MethodNotAllowedError : HTTPError :=
  createError "Method Not Allowed" 405 none

def InternalError (msg : List String) : HTTPError :=
  createError (errorMessage "Internal Server Error" msg) 500 none

/-! ## context.go and response.go -/

abbrev ContextData := List (String × GoValue)

abbrev URLParams := List (String × String)

/-- One response as it reaches the transport: the header set sent with the
status line, the status and the body. -/
structure Transmission where
  headers : Header
  status : Int
  body : String
  deriving DecidableEq

/-- Model of the `http.ResponseWriter` handed to the router: its header map
and the log of what was written to the transport. -/
structure ResponseWriter where
  header : Header
  wire : List Transmission
  deriving DecidableEq

/-- Model of the parts of `*http.Request` the router reads.  `Body` is the
outcome of reading the body stream to its end. -/
structure Request where
  Method : String
  URLPath : String
  Header : Header
  Query : List (String × List String)
  Body : Except String String

structure Context where
  Res : ResponseWriter
  Req : Request
  Params : URLParams
  Query : List (String × List String)
  Method : String
  URI : String
  data : ContextData
  responseSent : Bool

structure response where
  Status : Int
  ContentType : String
  Data : String

def createContext (response : ResponseWriter) (request : Request) : Context :=
  let url := request.URLPath
  let url := TrimSuffix url "/"
  let url := "/" ++ TrimPrefix url "/"
  { Res := response, Req := request, Params := [], Query := request.Query,
    Method := request.Method, URI := url, data := [], responseSent := false }

/-- `Context.JSON`: the returned option is the Go error (none for nil); the
decoded target is returned next to it. -/
def Context.JSON (enc : Encoders) (ctx : Context) (parsed : GoValue) : GoValue × Option String :=
  if ctx.Req.Header.Get "Content-Type" ≠ contentTypeOf "JSON" then
    (parsed, some "Content-Type is not JSON")
  else
    match ctx.Req.Body with
    | .error err => (parsed, some err)
    | .ok body => ((enc.jsonUnmarshal body parsed).1, none)

/-- `ResponseWriter.WriteHeader` of `net/http` (external library) checks the
status code before anything is written: a code outside 100..999 panics. -/
def checkWriteHeaderCode (code : Int) : Except Panic Unit :=
  if code < 100 ∨ code > 999 then .error (.invalidWriteHeaderCode code) else .ok ()

/-- `Context.writeResponse`.  When `WriteHeader` panics the `Content-Type` has
been added to the header, nothing was handed to the transport and
`responseSent` is still false; the panic value does not carry that context. -/
def Context.writeResponse (ctx : Context) (res : response) : Except Panic Context :=
  if !ctx.responseSent then
    let header := ctx.Res.header.Add "Content-Type" res.ContentType
    match checkWriteHeaderCode res.Status with
    | .error p => .error p
    | .ok _ =>
      .ok { ctx with
        Res := { header := header, wire := ctx.Res.wire ++ [⟨header, res.Status, res.Data⟩] },
        responseSent := true }
  else .ok ctx

def Context.Error (enc : Encoders) (ctx : Context) (err : HTTPError) : Except Panic Context :=
  ctx.writeResponse
    { Status := err.Code, ContentType := contentTypeOf "JSON", Data := err.GetResponseData enc }

structure ResponseBuilder where
  ctx : Context
  data : GoValue

def getResponseBuilder (ctx : Context) (data : GoValue) : ResponseBuilder :=
  { ctx := ctx, data := data }

def ResponseBuilder.GetContentType (builder : ResponseBuilder) : String :=
  let contentType := builder.ctx.Res.header.Get "Content-Type"
  if contentType ≠ "" then contentType
  else
    match builder.data.kind with
    | .Map => contentTypeOf "JSON"
    | .Struct => contentTypeOf "JSON"
    | .Array => contentTypeOf "JSON"
    | _ => contentTypeOf "text"

def ResponseBuilder.Serialize (enc : Encoders) (builder : ResponseBuilder) : String × Option String :=
  if builder.GetContentType = contentTypeOf "JSON" then jsonSerialize enc builder.data
  else textSerialize enc builder.data

/-- `Context.Send(params...)`: `params` are the variadic arguments. -/
def Context.Send (enc : Encoders) (ctx : Context) (params : List GoValue) : Except Panic Context :=
  match params with
  | [] => .error (.message "Provide data to send")
  | data :: rest =>
    let status : Except Panic Int :=
      if params.length = 2 then
        match rest with
        | [.int n] => .ok n
        | _ => .error .typeAssertion
      else .ok 200
    match status with
    | .error p => .error p
    | .ok status =>
      let responseBuilder := getResponseBuilder ctx data
      match responseBuilder.Serialize enc with
      | (_, some _) => ctx.Error enc (InternalError ["Failed to serialize output data"])
      | (serialized, none) =>
        ctx.writeResponse
          { Status := status, ContentType := responseBuilder.GetContentType, Data := serialized }

def Context.Set (ctx : Context) (key : String) (data : GoValue) : Context :=
  { ctx with data := mapSet ctx.data key data }

def Context.Get (ctx : Context) (key : String) : GoValue × Bool :=
  match mapGet ctx.data key with
  | none => (.nil, false)
  | some data => (data, true)

/-! ## router.go -/

/-- A handler receives the context by pointer; its effect is the new context. -/
abbrev RouteHandler := Context → Context

structure Route where
  Method : String
  URI : String
  Handlers : List RouteHandler
  pattern : String
  «variables» : List String

/-- `Middleware` with `middlewareSpare = cap(Middleware) - len(Middleware)`,
the unused capacity of the slice (zero for a slice literal). -/
structure RouteGroup where
  Prefix : String
  Middleware : List RouteHandler
  middlewareSpare : Nat

structure Router where
  routes : List Route
  group : RouteGroup

/-- `regexp.MustCompile` panics when the pattern does not compile; a nil
result of `FindStringSubmatch` is the empty list. -/
def matchURL (route : Route) (path : String) : Except Panic (List String) :=
  match regexp.compile route.pattern with
  | .error e => .error (.regexpCompile e)
  | .ok routeRegex => .ok ((regexp.FindStringSubmatch routeRegex path).getD [])

/-- The first parameter is shadowed by the loop variable, as in the source. -/
def getMatchForMethod (route : Route) (path : String) (method : String) :
    List Route → Except Panic (List String)
  | [] => .ok []
  | r :: routes =>
    match matchURL r path with
    | .error p => .error p
    | .ok m =>
      if m.length > 0 ∧ r.Method = method then .ok m
      else getMatchForMethod route path method routes

def mapURLParamsLoop (values : List String) : List String → Nat → URLParams → Except Panic URLParams
  | [], _, params => .ok params
  | name :: names, i, params =>
    match values.get? i with
    | none => .error .indexOutOfRange
    | some v => mapURLParamsLoop values names (i + 1) (mapSet params name v)

def mapURLParams (names values : List String) : Except Panic URLParams :=
  mapURLParamsLoop values names 0 []

/-- The loop of `getHandlerForRoute` over the routes still to visit; `routes`
is the whole table.  The result is the returned pair and the context, whose
`Params` the function assigns. -/
def getHandlerForRouteLoop (ctx : Context) (routes : List Route) :
    List Route → Except Panic (List RouteHandler × Option HTTPError × Context)
  | [] => .ok ([], some (NotFoundError []), ctx)
  | route :: rest =>
    match matchURL route ctx.URI with
    | .error p => .error p
    | .ok m =>
      if m.length > 0 then
        match getMatchForMethod route ctx.URI ctx.Method routes with
        | .error p => .error p
        | .ok found =>
          if found.length > 0 then
            let values := found.drop 1
            match mapURLParams route.«variables» values with
            | .error p => .error p
            | .ok params => .ok (route.Handlers, none, { ctx with Params := params })
          else .ok ([], some MethodNotAllowedError, ctx)
      else getHandlerForRouteLoop ctx routes rest

def getHandlerForRoute (ctx : Context) (routes : List Route) :
    Except Panic (List RouteHandler × Option HTTPError × Context) :=
  getHandlerForRouteLoop ctx routes routes

/-- `executeHandlers`: the final context together with the handlers that
were called, in call order. -/
def executeHandlers : List RouteHandler → Context → Except Panic (Context × List RouteHandler)
  | handlers, ctx =>
    if ctx.responseSent then .ok (ctx, [])
    else
      match handlers with
      | [] => .error .indexOutOfRange
      | h :: rest =>
        let ctx := h ctx
        if handlers.length = 1 then .ok (ctx, [h])
        else
          match executeHandlers rest ctx with
          | .error p => .error p
          | .ok (ctx, called) => .ok (ctx, h :: called)

def Initialize : Router :=
  { routes := [], group := { Prefix := "", Middleware := [], middlewareSpare := 0 } }

def Group (group : RouteGroup) : Router :=
  { Initialize with group := group }

def normalizeURLSlashes (url : String) : String :=
  let url := TrimSuffix url "/"
  let url := "/" ++ TrimPrefix url "/"
  url

/-- The placeholder expression of `addRoute`, backslash, open brace, `(.*?)`,
backslash, close brace. -/
def placeholderPattern : String := "\\\x7b(.*?)\\\x7d"

/-- The compiled form of `placeholderPattern`. -/
def placeholderRe : regexp.Regexp :=
  ⟨.seq (.char '{') (.seq (.group 1 (.seq (.rept 0 none false .any) .empty))
      (.seq (.char '}') .empty)), 1⟩

/-- `addRoute`: `re` is `regexp.MustCompile` of the placeholder expression,
which compiles to `placeholderRe`.  The pattern and the variable names are
taken from `path` as given; only the stored `URI` is normalized. -/
def addRoute (router : Router) (method : String) (path : String) (handlers : List RouteHandler) :
    Router :=
  let re := placeholderRe
  let pattern := "^" ++ regexp.ReplaceAllString re path "([^\\/]+?)" ++ "$"
  let variablesMatch := regexp.FindAllStringSubmatch re path
  let vars := variablesMatch.map (fun varMatch => varMatch.getD 1 "")
  { router with
    routes := router.routes ++
      [{ Method := method, URI := normalizeURLSlashes path, Handlers := handlers,
         pattern := pattern, «variables» := vars }] }

def Router.Get (router : Router) (path : String) (handlers : List RouteHandler) : Router :=
  addRoute router "GET" path handlers

def Router.Post (router : Router) (path : String) (handlers : List RouteHandler) : Router :=
  addRoute router "POST" path handlers

def Router.Put (router : Router) (path : String) (handlers : List RouteHandler) : Router :=
  addRoute router "PUT" path handlers

def Router.Delete (router : Router) (path : String) (handlers : List RouteHandler) : Router :=
  addRoute router "DELETE" path handlers

/-- What lies in the backing array of the group's middleware slice beyond
its length once `Use` has run its appends for the given routes in order.
Go's `append(s, xs...)` writes `xs` into the backing array of `s` when
`len(s) + len(xs) ≤ cap(s)` and allocates a fresh array otherwise. -/
def spareAfterAppends (spare : Nat) : List Route → List RouteHandler → List RouteHandler
  | [], written => written
  | route :: routes, written =>
    spareAfterAppends spare routes
      (if route.Handlers.length ≤ spare then route.Handlers ++ written.drop route.Handlers.length
       else written)

/-- `Router.Use`: the receiver after the call.  A handler slice that `append`
built inside the middleware's backing array is read back from that array as
it stands when the loop has finished; a freshly allocated one keeps its
contents. -/
def Router.Use (router : Router) (groupRouter : Router) : Router :=
  let spare := groupRouter.group.middlewareSpare
  let shared := spareAfterAppends spare groupRouter.routes []
  groupRouter.routes.foldl (fun (router : Router) (route : Route) =>
    addRoute router
      route.Method
      (groupRouter.group.Prefix ++ "/" ++ TrimPrefix route.URI "/")
      (if route.Handlers.length ≤ spare then
        groupRouter.group.Middleware ++ shared.take route.Handlers.length
       else groupRouter.group.Middleware ++ route.Handlers)) router

/-- `httpHandler.ServeHTTP`. -/
def ServeHTTP (enc : Encoders) (router : Router) (response : ResponseWriter) (request : Request) :
    Except Panic Context :=
  let ctx := createContext response request
  match getHandlerForRoute ctx router.routes with
  | .error p => .error p
  | .ok (_, some err, ctx) => ctx.Error enc err
  | .ok (handlers, none, ctx) =>
    match executeHandlers handlers ctx with
    | .error p => .error p
    | .ok (ctx, _) => .ok ctx

/-! ## Vocabulary of the statements -/

/-- The route's pattern is accepted by `regexp.compile`. -/
def Compiles (r : Route) : Prop := ∃ re, regexp.compile r.pattern = .ok re

/-- The route's pattern matches the path: `matchURL` returns a non-empty slice. -/
def PatternMatches (r : Route) (path : String) : Prop :=
  ∃ m, matchURL r path = .ok m ∧ m ≠ []

/-- The submatches `matchURL` yields for a route whose pattern compiles. -/
def submatches (r : Route) (path : String) : List String :=
  match regexp.compile r.pattern with
  | .ok re => (regexp.FindStringSubmatch re path).getD []
  | .error _ => []

/-- Boolean form of `PatternMatches` for routes whose pattern compiles. -/
def hits (path : String) (r : Route) : Bool := decide (0 < (submatches r path).length)

instance (r : Route) : Decidable (Compiles r) :=
  match h : regexp.compile r.pattern with
  | .ok re => isTrue ⟨re, h⟩
  | .error e => isFalse (by rintro ⟨re, hre⟩; rw [h] at hre; cases hre)

instance (r : Route) (path : String) : Decidable (PatternMatches r path) :=
  match h : matchURL r path with
  | .ok [] => isFalse (by rintro ⟨m, hm, hne⟩; rw [h] at hm; cases hm; exact hne rfl)
  | .ok (x :: xs) => isTrue ⟨x :: xs, h, by simp⟩
  | .error e => isFalse (by rintro ⟨m, hm, _⟩; rw [h] at hm; cases hm)

/-! ## Sample handlers, requests and tables -/

/-- A handler that records in the scratch map that the GET handler ran. -/
def handlerGet : RouteHandler := fun ctx => ctx.Set "handled-by-GET" (.bool true)

/-- A handler that records in the scratch map that the DELETE handler ran. -/
def handlerDelete : RouteHandler := fun ctx => ctx.Set "handled-by-DELETE" (.bool true)

/-- A request with the given method and raw URL path, no headers and an empty body. -/
def sampleRequest (method path : String) : Request :=
  { Method := method, URLPath := path, Header := [], Query := [], Body := .ok "" }

/-- The context `ServeHTTP` builds for `sampleRequest` on a fresh response writer. -/
def sampleContext (method path : String) : Context :=
  createContext ⟨[], []⟩ (sampleRequest method path)

/-- The table `GET /users/{id}`. -/
def usersTable : Router := Initialize.Get "/users/{id}" [handlerGet]

/-- The table `GET /users/{id}`, `DELETE /users/{id}`. -/
def usersGetDeleteTable : Router := usersTable.Delete "/users/{id}" [handlerDelete]

/-- The table `GET /users/{id}`, `DELETE /users/{name}`. -/
def usersIdNameTable : Router := usersTable.Delete "/users/{name}" [handlerDelete]

/-- The route `addRoute` stores for `GET /users/{id}` with `handlerGet`. -/
def getUsersRoute : Route :=
  { Method := "GET", URI := "/users/{id}", Handlers := [handlerGet],
    pattern := "^/users/([^\\/]+?)$", «variables» := ["id"] }

/-- The route `addRoute` stores for `DELETE /users/{id}` with `handlerDelete`. -/
def deleteUsersRoute : Route :=
  { Method := "DELETE", URI := "/users/{id}", Handlers := [handlerDelete],
    pattern := "^/users/([^\\/]+?)$", «variables» := ["id"] }

/-- The context after calling the given handlers one after the other. -/
def runAll (hs : List RouteHandler) (ctx : Context) : Context :=
  hs.foldl (fun c h => h c) ctx

/-- Stand-ins for the serializers, for evaluating examples: every value
marshals to `{}` and prints as `text`. -/
def sampleEncoders : Encoders :=
  { jsonMarshal := fun _ => .ok "{}", jsonUnmarshal := fun _ v => (v, none),
    sprintV := fun _ => "text" }

/-- A handler that answers 404 through `Context.Error`; `WriteHeader` accepts
the code, so the call returns. -/
def handlerReject : RouteHandler := fun ctx =>
  match ctx.Error sampleEncoders (NotFoundError []) with
  | .ok ctx => ctx
  | .error _ => ctx

/-- A response-writing call a handler can make on the context. -/
inductive Call where
  | send (params : List GoValue)
  | error (err : HTTPError)

/-- Perform one call on the context. -/
def Call.run (enc : Encoders) (ctx : Context) : Call → Except Panic Context
  | .send params => ctx.Send enc params
  | .error err => ctx.Error enc err

/-- Perform calls one after the other.  A panic ends the sequence; the result
is the context reached and the panic, if any.  With a panic the context is
the one the panicking call started from: its transport log is the log at the
panic. -/
def runCalls (enc : Encoders) : List Call → Context → Context × Option Panic
  | [], ctx => (ctx, none)
  | c :: cs, ctx =>
    match c.run enc ctx with
    | .error p => (ctx, some p)
    | .ok ctx => runCalls enc cs ctx

/-- A call with arguments of the right shape: `Send` needs a payload, and
when it has exactly two arguments the second is an `int`.  Such a call can
only panic in `WriteHeader`. -/
def Call.WellFormed : Call → Prop
  | .send [] => False
  | .send [_, status] => ∃ n, status = .int n
  | .send _ => True
  | .error _ => True

/-- The status `Send` uses for its arguments after the payload. -/
def sendStatus (rest : List GoValue) : Int :=
  match rest with
  | [.int n] => n
  | _ => 200

/-- The status code a call hands to `WriteHeader` when its payload
serializes is one `WriteHeader` accepts. -/
def Call.ValidStatus : Call → Prop
  | .send [] => True
  | .send (_ :: rest) => 100 ≤ sendStatus rest ∧ sendStatus rest ≤ 999
  | .error err => 100 ≤ err.Code ∧ err.Code ≤ 999

/-- The context after `writeResponse` wrote the response. -/
def Context.written (ctx : Context) (res : response) : Context :=
  { ctx with
    Res := { header := ctx.Res.header.Add "Content-Type" res.ContentType,
             wire := ctx.Res.wire ++
               [⟨ctx.Res.header.Add "Content-Type" res.ContentType, res.Status, res.Data⟩] },
    responseSent := true }

/-- A group middleware that answers 401 through `Context.Error`; `WriteHeader`
accepts the code, so the call returns. -/
def middlewareAuth : RouteHandler := fun ctx =>
  match ctx.Error sampleEncoders (UnauthorizedError none []) with
  | .ok ctx => ctx
  | .error _ => ctx

/-- A group with prefix `/api` whose middleware slice holds `middlewareAuth`
and has room for one more element, as after `make([]RouteHandler, 1, 2)`,
with the routes `GET /a` and `GET /b`. -/
def apiGroupSpare : Router :=
  ((Group { Prefix := "/api", Middleware := [middlewareAuth], middlewareSpare := 1 }).Get
    "/a" [handlerGet]).Get "/b" [handlerDelete]

/-! ## Path templates made of literal and placeholder segments -/

/-- One slash-separated segment of a path template: literal text, or a
placeholder written as its name in braces. -/
inductive Segment where
  | lit (text : List Char)
  | var (name : List Char)
  deriving DecidableEq

/-- The characters with a meaning in a regular expression. -/
def regexMeta : List Char :=
  ['\\', '.', '+', '*', '?', '(', ')', '|', '[', ']', '{', '}', '^', '$']

/-- The text of a segment inside a template, with its leading slash. -/
def Segment.template : Segment → List Char
  | .lit t => '/' :: t
  | .var n => '/' :: '{' :: n ++ ['}']

/-- The path template made of the segments. -/
def templateOf (segs : List Segment) : String := String.mk (segs.flatMap Segment.template)

/-- The placeholder names of the segments, in template order. -/
def placeholderNames : List Segment → List (List Char)
  | [] => []
  | .lit _ :: segs => placeholderNames segs
  | .var n :: segs => n :: placeholderNames segs

/-- The concrete path that puts the values, in order, in place of the
placeholders. -/
def substitute : List Segment → List (List Char) → List Char
  | [], _ => []
  | .lit t :: segs, vals => '/' :: t ++ substitute segs vals
  | .var _ :: segs, [] => '/' :: substitute segs []
  | .var _ :: segs, v :: vals => '/' :: v ++ substitute segs vals

/-- A literal segment is free of regular-expression metacharacters; a
placeholder name has no closing brace and no line break. -/
def Segment.WellFormed : Segment → Prop
  | .lit t => ∀ c ∈ t, c ∉ regexMeta
  | .var n => ∀ c ∈ n, c ≠ '}' ∧ c ≠ '\n'

/-- A value for a placeholder: non-empty and without a slash. -/
def ValueOK (v : List Char) : Prop := v ≠ [] ∧ '/' ∉ v

/-- The expression `([^\/]+?)` that replaces a placeholder, as capture group `k`. -/
def placeholderGroup (k : Nat) : regexp.Regex :=
  .group k (.seq (.rept 1 none false (.cls true [('/', '/')])) .empty)

/-- The items of the compiled pattern for the segments; `k` capture groups
precede them. -/
def segmentItems : Nat → List Segment → List regexp.Regex
  | _, [] => []
  | k, .lit t :: segs => .char '/' :: t.map .char ++ segmentItems k segs
  | k, .var _ :: segs => .char '/' :: placeholderGroup (k + 1) :: segmentItems (k + 1) segs

/-- The replacement text of `addRoute`. -/
def replacementText : String := "([^\\/]+?)"

/-- The text of the pattern `addRoute` builds for the segments, between `^` and `$`. -/
def segmentPattern : List Segment → List Char
  | [] => []
  | .lit t :: segs => '/' :: t ++ segmentPattern segs
  | .var _ :: segs => '/' :: replacementText.data ++ segmentPattern segs

/-- The stretches `regexp.pieces` finds in the template of the segments for
the placeholder expression, the template starting at position `pos`. -/
def templatePieces : Nat → List Segment → List regexp.Piece
  | _, [] => []
  | pos, .lit t :: segs => .text '/' :: t.map .text ++ templatePieces (pos + 1 + t.length) segs
  | pos, .var n :: segs =>
    .text '/' :: .matched ⟨pos + 1, '{' :: n ++ ['}'], [some n], segs.flatMap Segment.template⟩
      :: templatePieces (pos + 1 + (n.length + 2)) segs

instance (s : Segment) : Decidable s.WellFormed := by
  cases s <;> unfold Segment.WellFormed <;> infer_instance

instance (v : List Char) : Decidable (ValueOK v) := by
  unfold ValueOK
  infer_instance

/-- The segments of the template `/users/{userID}/posts/{postID}`. -/
def userPostSegments : List Segment :=
  [.lit "users".data, .var "userID".data, .lit "posts".data, .var "postID".data]

/-- Stand-ins for the serializers, for evaluating examples in which they
fail: a map whose first entry is a channel does not marshal, and only the
body `{}` can be unmarshalled. -/
def strictEncoders : Encoders :=
  { jsonMarshal := fun v =>
      match v with
      | .map ((_, .chan) :: _) => .error "json: unsupported type"
      | _ => .ok "{}",
    jsonUnmarshal := fun body v =>
      if body = "{}" then (v, none) else (v, some "invalid character"),
    sprintV := fun _ => "text" }

/-- A request that declares a JSON body and carries the given text. -/
def jsonRequest (body : String) : Request :=
  { Method := "POST", URLPath := "/items", Header := [("Content-Type", ["application/json"])],
    Query := [], Body := .ok body }

/-- The table `GET /files/{name}`, `POST /files/readme`: both patterns match
the path `/files/readme`, the first with one placeholder, the second with none. -/
def filesTable : Router :=
  (Initialize.Get "/files/{name}" [handlerGet]).Post "/files/readme" [handlerDelete]

/-- The group of the spec's example: prefix `/api`, middleware
`middlewareAuth`, the route `POST /items` with `handlerGet`. -/
def apiItemsGroup : Router :=
  (Group { Prefix := "/api", Middleware := [middlewareAuth], middlewareSpare := 0 }).Post
    "/items" [handlerGet]

/-- The group `/api` with a route for the group root `/`. -/
def apiRootGroup : Router :=
  (Group { Prefix := "/api", Middleware := [middlewareAuth], middlewareSpare := 0 }).Get
    "/" [handlerGet]

/-- The same group as `apiItemsGroup` with the prefix written `api`. -/
def apiBareGroup : Router :=
  (Group { Prefix := "api", Middleware := [middlewareAuth], middlewareSpare := 0 }).Post
    "/items" [handlerGet]

/-- The same group as `apiItemsGroup` with the prefix written `/api/`. -/
def apiSlashItemsGroup : Router :=
  (Group { Prefix := "/api/", Middleware := [middlewareAuth], middlewareSpare := 0 }).Post
    "/items" [handlerGet]

/-- A stretch of a template is clean when it is a placeholder or a character
without a meaning in a regular expression. -/
def cleanPiece : regexp.Piece → Bool
  | .text c => decide (c ∉ regexMeta)
  | .matched _ => true

/-- The template has no regular-expression metacharacter outside its
placeholders, the matches of the placeholder expression. -/
def CleanTemplate (path : String) : Prop :=
  ∀ p ∈ regexp.pieces placeholderRe 0 0 false path.data, cleanPiece p = true

instance (path : String) : Decidable (CleanTemplate path) := by
  unfold CleanTemplate
  infer_instance

/-- The number of placeholders of a template: the matches of the placeholder
expression in it. -/
def placeholderCount (path : String) : Nat :=
  (regexp.FindAllStringSubmatch placeholderRe path).length

/-- Every route's pattern compiles and has as many capture groups as the
route has variables. -/
def CaptureInvariant (router : Router) : Prop :=
  ∀ r ∈ router.routes, ∃ re, regexp.compile r.pattern = .ok re ∧ re.ncap = r.«variables».length

/-! ## Matching: the three outcomes of `getHandlerForRoute` -/

theorem matchURL_of_compiles {r : Route} (h : Compiles r) (path : String) :
    matchURL r path = .ok (submatches r path) := by
  obtain ⟨re, hre⟩ := h
  simp [matchURL, submatches, hre]

theorem patternMatches_iff_hits {r : Route} (h : Compiles r) (path : String) :
    PatternMatches r path ↔ hits path r = true := by
  unfold PatternMatches hits
  rw [matchURL_of_compiles h]
  constructor
  · rintro ⟨m, hm, hne⟩
    cases hm
    simpa [List.length_pos] using hne
  · intro hpos
    exact ⟨_, rfl, by simpa [List.length_pos] using hpos⟩

/-- Under compiling patterns `getMatchForMethod` returns the submatches of the
first route that matches the path and carries the method. -/
theorem getMatchForMethod_eq (x : Route) (path method : String) (routes : List Route)
    (hc : ∀ r ∈ routes, Compiles r) :
    getMatchForMethod x path method routes =
      .ok (match routes.find? (fun r => hits path r && decide (r.Method = method)) with
           | some r => submatches r path
           | none => []) := by
  induction routes with
  | nil => rfl
  | cons r rs ih =>
    have hr : Compiles r := hc r (List.mem_cons_self _ _)
    have hrs : ∀ r ∈ rs, Compiles r := fun q hq => hc q (List.mem_cons_of_mem _ hq)
    rw [getMatchForMethod, matchURL_of_compiles hr]
    by_cases hcond : hits path r = true ∧ r.Method = method
    · have h1 : (submatches r path).length > 0 ∧ r.Method = method := by
        refine ⟨?_, hcond.2⟩
        simpa [hits] using hcond.1
      simp [h1, List.find?_cons, hcond.1, hcond.2]
    · have h1 : ¬ ((submatches r path).length > 0 ∧ r.Method = method) := by
        intro h
        exact hcond ⟨by simpa [hits] using h.1, h.2⟩
      have h2 : (hits path r && decide (r.Method = method)) = false := by
        rw [Bool.and_eq_false_iff]
        by_cases hh : hits path r = true
        · right
          simpa using fun hm => hcond ⟨hh, hm⟩
        · left
          simpa using hh
      simp only [h1, if_false, List.find?_cons, h2]
      exact ih hrs

/-- The outcome of the routing loop as a function of the first route that
matches the path and of the first route that matches it with the method. -/
theorem getHandlerForRouteLoop_eq (ctx : Context) (routes rest : List Route)
    (hc : ∀ r ∈ routes, Compiles r) (hrest : ∀ r ∈ rest, Compiles r) :
    getHandlerForRouteLoop ctx routes rest =
      match rest.find? (hits ctx.URI) with
      | none => .ok ([], some (NotFoundError []), ctx)
      | some first =>
        match routes.find? (fun r => hits ctx.URI r && decide (r.Method = ctx.Method)) with
        | none => .ok ([], some MethodNotAllowedError, ctx)
        | some r =>
          match mapURLParams first.«variables» ((submatches r ctx.URI).drop 1) with
          | .error p => .error p
          | .ok params => .ok (first.Handlers, none, { ctx with Params := params }) := by
  induction rest with
  | nil => rfl
  | cons r rs ih =>
    have hr : Compiles r := hrest r (List.mem_cons_self _ _)
    have hrs : ∀ r ∈ rs, Compiles r := fun q hq => hrest q (List.mem_cons_of_mem _ hq)
    rw [getHandlerForRouteLoop, matchURL_of_compiles hr]
    by_cases hh : hits ctx.URI r = true
    · have hlen : (submatches r ctx.URI).length > 0 := by simpa [hits] using hh
      simp only [hlen, if_true, List.find?_cons, hh]
      rw [getMatchForMethod_eq _ _ _ _ hc]
      cases hf : routes.find? (fun r => hits ctx.URI r && decide (r.Method = ctx.Method)) with
      | none => simp
      | some r2 =>
        have hr2 := List.find?_some hf
        have hlen2 : (submatches r2 ctx.URI).length > 0 := by
          have : hits ctx.URI r2 = true := by
            simp only [Bool.and_eq_true] at hr2
            exact hr2.1
          simpa [hits] using this
        simp only [hlen2, if_true]
    · have hlen : ¬ (submatches r ctx.URI).length > 0 := by
        intro h
        exact hh (by simpa [hits] using h)
      have hh2 : hits ctx.URI r = false := by simpa using hh
      simp only [hlen, if_false, List.find?_cons, hh2]
      exact ih hrs

theorem getHandlerForRoute_eq (ctx : Context) (routes : List Route)
    (hc : ∀ r ∈ routes, Compiles r) :
    getHandlerForRoute ctx routes =
      match routes.find? (hits ctx.URI) with
      | none => .ok ([], some (NotFoundError []), ctx)
      | some first =>
        match routes.find? (fun r => hits ctx.URI r && decide (r.Method = ctx.Method)) with
        | none => .ok ([], some MethodNotAllowedError, ctx)
        | some r =>
          match mapURLParams first.«variables» ((submatches r ctx.URI).drop 1) with
          | .error p => .error p
          | .ok params => .ok (first.Handlers, none, { ctx with Params := params }) :=
  getHandlerForRouteLoop_eq ctx routes routes hc hc

theorem notFound_ne_methodNotAllowed : NotFoundError [] ≠ MethodNotAllowedError := by
  intro h
  have := congrArg HTTPError.Code h
  simp [NotFoundError, MethodNotAllowedError, createError] at this

/-- The result of a successful match is never an HTTP error. -/
theorem bound_ne_httpError (x : Except Panic URLParams) (hs0 : List RouteHandler) (ctx : Context)
    (hs : List RouteHandler) (e : HTTPError) (c : Context) :
    (match x with
      | .error p => (.error p : Except Panic (List RouteHandler × Option HTTPError × Context))
      | .ok params => .ok (hs0, none, { ctx with Params := params })) ≠ .ok (hs, some e, c) := by
  cases x <;> simp

/-- When every pattern compiles, Method-Not-Allowed is returned exactly when
the path is matched by some route and by no route with the requested method. -/
theorem getHandlerForRoute_methodNotAllowed (ctx : Context) (routes : List Route)
    (hc : ∀ r ∈ routes, Compiles r) :
    (getHandlerForRoute ctx routes
        = .ok ([], some ⟨"Method Not Allowed", 405, none⟩, ctx) ↔
      ((∃ r ∈ routes, PatternMatches r ctx.URI) ∧
        ∀ r ∈ routes, PatternMatches r ctx.URI → r.Method ≠ ctx.Method)) ∧
    (∀ hs e c, getHandlerForRoute ctx routes = .ok (hs, some e, c) → e.Code = 405 →
      getHandlerForRoute ctx routes = .ok ([], some ⟨"Method Not Allowed", 405, none⟩, ctx)) := by
  rw [getHandlerForRoute_eq ctx routes hc]
  cases h1 : routes.find? (hits ctx.URI) with
  | none =>
    have hnone : ∀ r ∈ routes, ¬ PatternMatches r ctx.URI := by
      intro r hr hm
      have := List.find?_eq_none.mp h1 r hr
      exact this ((patternMatches_iff_hits (hc r hr) _).mp hm)
    refine ⟨⟨?_, ?_⟩, ?_⟩
    · intro h
      simp [NotFoundError, createError, errorMessage] at h
    · rintro ⟨⟨r, hr, hm⟩, _⟩
      exact absurd hm (hnone r hr)
    · intro hs e c h hcode
      simp only [Except.ok.injEq, Prod.mk.injEq, Option.some.injEq] at h
      rw [← h.2.1] at hcode
      simp [NotFoundError, createError] at hcode
  | some first =>
    have hfirst : first ∈ routes ∧ PatternMatches first ctx.URI := by
      have hmem := List.mem_of_find?_eq_some h1
      exact ⟨hmem, (patternMatches_iff_hits (hc first hmem) _).mpr (List.find?_some h1)⟩
    cases h2 : routes.find? (fun r => hits ctx.URI r && decide (r.Method = ctx.Method)) with
    | none =>
      refine ⟨⟨fun _ => ⟨⟨first, hfirst.1, hfirst.2⟩, ?_⟩, fun _ => rfl⟩, fun _ _ _ _ _ => rfl⟩
      intro r hr hm heq
      have := List.find?_eq_none.mp h2 r hr
      apply this
      simp [(patternMatches_iff_hits (hc r hr) _).mp hm, heq]
    | some r2 =>
      have hr2mem := List.mem_of_find?_eq_some h2
      have hr2 := List.find?_some h2
      simp only [Bool.and_eq_true, decide_eq_true_eq] at hr2
      refine ⟨⟨?_, ?_⟩, ?_⟩
      · intro h
        exact absurd h (bound_ne_httpError _ _ _ _ _ _)
      · rintro ⟨_, hall⟩
        exact absurd hr2.2 (hall r2 hr2mem ((patternMatches_iff_hits (hc r2 hr2mem) _).mpr hr2.1))
      · intro hs e c h
        exact absurd h (bound_ne_httpError _ _ _ _ _ _)

/-- C1: with every pattern of the table compiling, `getHandlerForRoute` returns
the Method-Not-Allowed error (405, "Method Not Allowed", nil payload, no
handlers, context untouched) exactly when some route's pattern matches the
path and no route whose pattern matches the path has the requested method;
and any returned error with code 405 is that result. -/
theorem C1_methodNotAllowed_iff (ctx : Context) (routes : List Route)
    (hc : ∀ r ∈ routes, Compiles r) :
    (getHandlerForRoute ctx routes
        = .ok ([], some ⟨"Method Not Allowed", 405, none⟩, ctx) ↔
      ((∃ r ∈ routes, PatternMatches r ctx.URI) ∧
        ∀ r ∈ routes, PatternMatches r ctx.URI → r.Method ≠ ctx.Method)) ∧
    (∀ hs e c, getHandlerForRoute ctx routes = .ok (hs, some e, c) → e.Code = 405 →
      getHandlerForRoute ctx routes = .ok ([], some ⟨"Method Not Allowed", 405, none⟩, ctx)) :=
  getHandlerForRoute_methodNotAllowed ctx routes hc

/-- C1, witness of the spec: the table `GET /users/{id}` answers
`DELETE /users/42` with Method-Not-Allowed. -/
theorem C1_witness :
    getHandlerForRoute (sampleContext "DELETE" "/users/42") usersTable.routes
      = .ok ([], some ⟨"Method Not Allowed", 405, none⟩, sampleContext "DELETE" "/users/42") :=
  (C1_methodNotAllowed_iff (sampleContext "DELETE" "/users/42") usersTable.routes
    (by decide)).1.2 (by decide)

/-- When every pattern compiles, Not-Found is returned exactly when no route's
pattern matches the path. -/
theorem getHandlerForRoute_notFound (ctx : Context) (routes : List Route)
    (hc : ∀ r ∈ routes, Compiles r) :
    (getHandlerForRoute ctx routes = .ok ([], some ⟨"Not Found", 404, none⟩, ctx) ↔
      ∀ r ∈ routes, ¬ PatternMatches r ctx.URI) ∧
    (∀ hs e c, getHandlerForRoute ctx routes = .ok (hs, some e, c) → e.Code = 404 →
      getHandlerForRoute ctx routes = .ok ([], some ⟨"Not Found", 404, none⟩, ctx)) := by
  rw [getHandlerForRoute_eq ctx routes hc]
  cases h1 : routes.find? (hits ctx.URI) with
  | none =>
    refine ⟨⟨fun _ => ?_, fun _ => rfl⟩, fun _ _ _ _ _ => rfl⟩
    intro r hr hm
    have := List.find?_eq_none.mp h1 r hr
    exact this ((patternMatches_iff_hits (hc r hr) _).mp hm)
  | some first =>
    have hfirst : first ∈ routes ∧ PatternMatches first ctx.URI := by
      have hmem := List.mem_of_find?_eq_some h1
      exact ⟨hmem, (patternMatches_iff_hits (hc first hmem) _).mpr (List.find?_some h1)⟩
    cases h2 : routes.find? (fun r => hits ctx.URI r && decide (r.Method = ctx.Method)) with
    | none =>
      refine ⟨⟨?_, ?_⟩, ?_⟩
      · intro h
        simp [MethodNotAllowedError, createError] at h
      · intro hall
        exact absurd hfirst.2 (hall first hfirst.1)
      · intro hs e c h hcode
        simp only [Except.ok.injEq, Prod.mk.injEq, Option.some.injEq] at h
        rw [← h.2.1] at hcode
        simp [MethodNotAllowedError, createError] at hcode
    | some r2 =>
      refine ⟨⟨?_, ?_⟩, ?_⟩
      · intro h
        exact absurd h (bound_ne_httpError _ _ _ _ _ _)
      · intro hall
        exact absurd hfirst.2 (hall first hfirst.1)
      · intro hs e c h
        exact absurd h (bound_ne_httpError _ _ _ _ _ _)

/-- C2: with every pattern of the table compiling, `getHandlerForRoute` returns
the Not-Found error (404, "Not Found", nil payload, no handlers, context
untouched) exactly when no route's pattern matches the path; any returned
error with code 404 is that result; and whether Not-Found is returned does
not depend on the requested method. -/
theorem C2_notFound_iff (ctx : Context) (routes : List Route)
    (hc : ∀ r ∈ routes, Compiles r) :
    (getHandlerForRoute ctx routes = .ok ([], some ⟨"Not Found", 404, none⟩, ctx) ↔
      ∀ r ∈ routes, ¬ PatternMatches r ctx.URI) ∧
    (∀ hs e c, getHandlerForRoute ctx routes = .ok (hs, some e, c) → e.Code = 404 →
      getHandlerForRoute ctx routes = .ok ([], some ⟨"Not Found", 404, none⟩, ctx)) ∧
    (∀ method : String,
      (getHandlerForRoute { ctx with Method := method } routes
          = .ok ([], some ⟨"Not Found", 404, none⟩, { ctx with Method := method }) ↔
        getHandlerForRoute ctx routes = .ok ([], some ⟨"Not Found", 404, none⟩, ctx))) := by
  refine ⟨(getHandlerForRoute_notFound ctx routes hc).1,
    (getHandlerForRoute_notFound ctx routes hc).2, ?_⟩
  intro method
  rw [(getHandlerForRoute_notFound ctx routes hc).1,
    (getHandlerForRoute_notFound { ctx with Method := method } routes hc).1]

/-- C2, witness of the spec: `/no/such/route` on the table `GET /users/{id}`
yields Not-Found, for GET as for any other method. -/
theorem C2_witness :
    getHandlerForRoute (sampleContext "GET" "/no/such/route") usersTable.routes
      = .ok ([], some ⟨"Not Found", 404, none⟩, sampleContext "GET" "/no/such/route") :=
  (C2_notFound_iff (sampleContext "GET" "/no/such/route") usersTable.routes
    (by decide)).1.2 (by decide)

theorem handlerGet_ne_handlerDelete : handlerGet ≠ handlerDelete := by
  intro h
  have h2 := congrArg (fun f => (f (sampleContext "GET" "/")).data.map Prod.fst) h
  revert h2
  decide

/-- C3, failing input: on the table `GET /users/{id}`, `DELETE /users/{name}`
the request `DELETE /users/42` is answered with the handler chain of the GET
route, the first route whose pattern matches, and the value captured by the
DELETE route is bound under the GET route's variable name `id`; no route with
method DELETE owns the returned chain. -/
theorem C3_returns_chain_of_first_structural_match :
    getHandlerForRoute (sampleContext "DELETE" "/users/42") usersIdNameTable.routes
        = .ok ([handlerGet], none,
            { sampleContext "DELETE" "/users/42" with Params := [("id", "42")] })
      ∧ (usersIdNameTable.routes.map (fun r => (r.Method, r.«variables»))
          = [("GET", ["id"]), ("DELETE", ["name"])])
      ∧ ¬ ∃ r ∈ usersIdNameTable.routes, r.Method = "DELETE" ∧ r.Handlers = [handlerGet] := by
  refine ⟨by rfl, by decide, ?_⟩
  rintro ⟨r, hr, hm, hh⟩
  have hroutes : usersIdNameTable.routes.map (fun r => (r.Method, r.Handlers))
      = [("GET", [handlerGet]), ("DELETE", [handlerDelete])] := by rfl
  have hmem : (r.Method, r.Handlers) ∈
      usersIdNameTable.routes.map (fun r => (r.Method, r.Handlers)) :=
    List.mem_map_of_mem _ hr
  rw [hroutes, hm, hh] at hmem
  simp only [List.mem_cons, Prod.mk.injEq, List.not_mem_nil, or_false] at hmem
  rcases hmem with ⟨h1, _⟩ | ⟨_, h2⟩
  · exact absurd h1 (by decide)
  · exact handlerGet_ne_handlerDelete (List.cons.inj h2).1

/-- C4, counterexample: on the table `GET /users/{id}`, `DELETE /users/{id}`
the request `DELETE /users/42` first hits the GET route, which does not have
the requested method, yet the result is not Method-Not-Allowed: no error is
returned. -/
theorem C4_counterexample :
    PatternMatches (usersGetDeleteTable.routes.getD 0 ⟨"", "", [], "", []⟩) "/users/42"
      ∧ (usersGetDeleteTable.routes.map (fun r => r.Method) = ["GET", "DELETE"])
      ∧ (sampleContext "DELETE" "/users/42").URI = "/users/42"
      ∧ getHandlerForRoute (sampleContext "DELETE" "/users/42") usersGetDeleteTable.routes
          ≠ .ok ([], some MethodNotAllowedError, sampleContext "DELETE" "/users/42")
      ∧ getHandlerForRoute (sampleContext "DELETE" "/users/42") usersGetDeleteTable.routes
          = .ok ([handlerGet], none,
              { sampleContext "DELETE" "/users/42" with Params := [("id", "42")] }) := by
  have hres : getHandlerForRoute (sampleContext "DELETE" "/users/42") usersGetDeleteTable.routes
          = .ok ([handlerGet], none,
              { sampleContext "DELETE" "/users/42" with Params := [("id", "42")] }) := by rfl
  refine ⟨by decide, by decide, by decide, ?_, hres⟩
  rw [hres]
  intro h
  simp at h

/-- C4, amended: with every pattern compiling, if the first route whose
pattern matches the path does not have the requested method, the result is
Method-Not-Allowed exactly when no route of the table matches the path with
the requested method; when a later route does, no HTTP error is returned. -/
theorem C4_first_hit_other_method (ctx : Context) (pre post : List Route) (first : Route)
    (hc : ∀ r ∈ pre ++ first :: post, Compiles r)
    (hpre : ∀ r ∈ pre, ¬ PatternMatches r ctx.URI)
    (hfirst : PatternMatches first ctx.URI) (hmethod : first.Method ≠ ctx.Method) :
    (getHandlerForRoute ctx (pre ++ first :: post)
        = .ok ([], some ⟨"Method Not Allowed", 405, none⟩, ctx) ↔
      ∀ r ∈ post, PatternMatches r ctx.URI → r.Method ≠ ctx.Method) ∧
    ((∃ r ∈ post, PatternMatches r ctx.URI ∧ r.Method = ctx.Method) →
      ∀ hs e c, getHandlerForRoute ctx (pre ++ first :: post) ≠ .ok (hs, some e, c)) := by
  have hC1 := getHandlerForRoute_methodNotAllowed ctx (pre ++ first :: post) hc
  have hex : ∃ r ∈ pre ++ first :: post, PatternMatches r ctx.URI :=
    ⟨first, by simp, hfirst⟩
  constructor
  · rw [hC1.1]
    constructor
    · rintro ⟨_, hall⟩ r hr hm
      exact hall r (by simp [hr]) hm
    · intro hall
      refine ⟨hex, ?_⟩
      intro r hr hm
      rcases List.mem_append.mp hr with h | h
      · exact absurd hm (hpre r h)
      · rcases List.mem_cons.mp h with h | h
        · rw [h]; exact hmethod
        · exact hall r h hm
  · rintro ⟨r2, hr2, hm2, heq2⟩ hs e c h
    rw [getHandlerForRoute_eq ctx _ hc] at h
    have hr2mem : r2 ∈ pre ++ first :: post := by simp [hr2]
    cases h1 : (pre ++ first :: post).find? (hits ctx.URI) with
    | none =>
      have := List.find?_eq_none.mp h1 first (by simp)
      exact this ((patternMatches_iff_hits (hc first (by simp)) _).mp hfirst)
    | some f =>
      cases h2 : (pre ++ first :: post).find?
          (fun r => hits ctx.URI r && decide (r.Method = ctx.Method)) with
      | none =>
        have := List.find?_eq_none.mp h2 r2 hr2mem
        apply this
        simp [(patternMatches_iff_hits (hc r2 hr2mem) _).mp hm2, heq2]
      | some r3 =>
        rw [h1, h2] at h
        exact absurd h (bound_ne_httpError _ _ _ _ _ _)

/-- C4, witness of the amended statement on the spec's table: the GET route
is hit first, the DELETE route follows, and `DELETE /users/42` is not
answered with an HTTP error. -/
theorem C4_witness :
    usersGetDeleteTable.routes = [] ++ getUsersRoute :: [deleteUsersRoute] ∧
    ∀ hs e c, getHandlerForRoute (sampleContext "DELETE" "/users/42")
      ([] ++ getUsersRoute :: [deleteUsersRoute]) ≠ .ok (hs, some e, c) :=
  ⟨rfl, (C4_first_hit_other_method (sampleContext "DELETE" "/users/42") [] [deleteUsersRoute]
    getUsersRoute (by decide) (by decide) (by decide) (by decide)).2
    ⟨deleteUsersRoute, by simp, by decide, by decide⟩⟩

/-! ## The execution pipeline -/

theorem executeHandlers_sent (hs : List RouteHandler) (ctx : Context)
    (h : ctx.responseSent = true) : executeHandlers hs ctx = .ok (ctx, []) := by
  cases hs <;> simp [executeHandlers, h]

theorem executeHandlers_run (hs : List RouteHandler) :
    ∀ ctx : Context, hs ≠ [] → ctx.responseSent = false →
      ∃ k, 1 ≤ k ∧ k ≤ hs.length ∧
        executeHandlers hs ctx = .ok (runAll (hs.take k) ctx, hs.take k) ∧
        (∀ j, 1 ≤ j → j < k → (runAll (hs.take j) ctx).responseSent = false) ∧
        (k < hs.length → (runAll (hs.take k) ctx).responseSent = true) := by
  induction hs with
  | nil => intro ctx h; exact absurd rfl h
  | cons h rest ih =>
    intro ctx _ hns
    by_cases hrest : rest = []
    · subst hrest
      refine ⟨1, le_refl _, by simp, ?_, ?_, ?_⟩
      · simp [executeHandlers, hns, runAll]
      · intro j h1 h2; omega
      · simp
    · have hlen : (h :: rest).length ≠ 1 := by
        cases rest with
        | nil => exact absurd rfl hrest
        | cons a b => simp
      by_cases hsent : (h ctx).responseSent = true
      · refine ⟨1, le_refl _, by simp, ?_, ?_, ?_⟩
        · rw [executeHandlers]
          simp only [hns, hlen, if_false, Bool.false_eq_true]
          rw [executeHandlers_sent rest (h ctx) hsent]
          simp [runAll]
        · intro j h1 h2; omega
        · intro _; simpa [runAll] using hsent
      · have hns1 : (h ctx).responseSent = false := by simpa using hsent
        obtain ⟨k, hk1, hk2, hrun, hbefore, hafter⟩ := ih (h ctx) hrest hns1
        refine ⟨k + 1, by omega, by simp; omega, ?_, ?_, ?_⟩
        · rw [executeHandlers]
          simp only [hns, hlen, if_false, Bool.false_eq_true]
          rw [hrun]
          simp [runAll]
        · intro j hj1 hj2
          obtain ⟨i, rfl⟩ : ∃ i, j = i + 1 := ⟨j - 1, by omega⟩
          by_cases hi : i = 0
          · subst hi
            simpa [runAll] using hns1
          · have := hbefore i (by omega) (by omega)
            simpa [runAll] using this
        · intro hlt
          have := hafter (by simpa using hlt)
          simpa [runAll] using this

/-- C7: on a context whose response is already sent no handler is called; on
a non-empty chain with the response not yet sent, `executeHandlers` calls
exactly the first `k` handlers, in order and once each, where `k` is the
least index after whose handler `responseSent` is true, or the length of the
chain when no handler sets it. -/
theorem C7_executeHandlers_stops_at_first_sent (hs : List RouteHandler) (ctx : Context) :
    (ctx.responseSent = true → executeHandlers hs ctx = .ok (ctx, [])) ∧
    (hs ≠ [] → ctx.responseSent = false →
      ∃ k, 1 ≤ k ∧ k ≤ hs.length ∧
        executeHandlers hs ctx = .ok (runAll (hs.take k) ctx, hs.take k) ∧
        (∀ j, 1 ≤ j → j < k → (runAll (hs.take j) ctx).responseSent = false) ∧
        (k < hs.length → (runAll (hs.take k) ctx).responseSent = true)) :=
  ⟨executeHandlers_sent hs ctx, executeHandlers_run hs ctx⟩

/-- C7, witness: of the chain `handlerGet`, `handlerReject`, `handlerDelete`
run on a fresh context, some first `k` handlers are called and the rest are
not. -/
theorem C7_witness :
    ∃ k, 1 ≤ k ∧ k ≤ [handlerGet, handlerReject, handlerDelete].length ∧
      executeHandlers [handlerGet, handlerReject, handlerDelete] (sampleContext "GET" "/")
        = .ok (runAll ([handlerGet, handlerReject, handlerDelete].take k) (sampleContext "GET" "/"),
            [handlerGet, handlerReject, handlerDelete].take k) ∧
      (∀ j, 1 ≤ j → j < k →
        (runAll ([handlerGet, handlerReject, handlerDelete].take j)
          (sampleContext "GET" "/")).responseSent = false) ∧
      (k < [handlerGet, handlerReject, handlerDelete].length →
        (runAll ([handlerGet, handlerReject, handlerDelete].take k)
          (sampleContext "GET" "/")).responseSent = true) :=
  (C7_executeHandlers_stops_at_first_sent [handlerGet, handlerReject, handlerDelete]
    (sampleContext "GET" "/")).2 (by simp) rfl

/-- C8, failing input: on the empty chain and a context whose response is not
sent, `executeHandlers` panics on `handlers[0]`; so does serving `GET /ping`
on a router where `/ping` was registered with `Get` and no handler. -/
theorem C8_empty_chain_panics (enc : Encoders) :
    executeHandlers [] (sampleContext "GET" "/ping") = .error .indexOutOfRange ∧
    ServeHTTP enc (Initialize.Get "/ping" []) ⟨[], []⟩ (sampleRequest "GET" "/ping")
      = .error .indexOutOfRange :=
  ⟨rfl, rfl⟩

/-! ## The single response write -/

theorem writeResponse_sent (ctx : Context) (res : response) (h : ctx.responseSent = true) :
    ctx.writeResponse res = .ok ctx := by
  simp [Context.writeResponse, h]

/-- On a context whose response is not sent, `writeResponse` writes when
`WriteHeader` accepts the status. -/
theorem writeResponse_fresh (ctx : Context) (res : response) (h : ctx.responseSent = false)
    (hlo : 100 ≤ res.Status) (hhi : res.Status ≤ 999) :
    ctx.writeResponse res = .ok (ctx.written res) := by
  have hc : checkWriteHeaderCode res.Status = .ok () := by
    unfold checkWriteHeaderCode
    rw [if_neg (by omega)]
  simp [Context.writeResponse, h, hc, Context.written]

/-- On a context whose response is not sent, `writeResponse` panics when
`WriteHeader` does not accept the status. -/
theorem writeResponse_invalid (ctx : Context) (res : response) (h : ctx.responseSent = false)
    (hbad : res.Status < 100 ∨ 999 < res.Status) :
    ctx.writeResponse res = .error (.invalidWriteHeaderCode res.Status) := by
  have hc : checkWriteHeaderCode res.Status = .error (.invalidWriteHeaderCode res.Status) := by
    unfold checkWriteHeaderCode
    rw [if_pos (by omega)]
  simp [Context.writeResponse, h, hc]

theorem writeResponse_cases (ctx : Context) (res : response) :
    (∃ p, ctx.writeResponse res = .error p) ∨
    (ctx.responseSent = true ∧ ctx.writeResponse res = .ok ctx) ∨
    (ctx.responseSent = false ∧ ctx.writeResponse res = .ok (ctx.written res)) := by
  by_cases hsent : ctx.responseSent = true
  · exact Or.inr (Or.inl ⟨hsent, writeResponse_sent ctx res hsent⟩)
  · have hfresh : ctx.responseSent = false := by simpa using hsent
    by_cases hbad : res.Status < 100 ∨ 999 < res.Status
    · exact Or.inl ⟨_, writeResponse_invalid ctx res hfresh hbad⟩
    · exact Or.inr (Or.inr ⟨hfresh, writeResponse_fresh ctx res hfresh (by omega) (by omega)⟩)

/-- A well-formed `Send` is one `writeResponse`. -/
theorem send_eq_writeResponse (enc : Encoders) (ctx : Context) (data : GoValue)
    (rest : List GoValue) (hwf : (Call.send (data :: rest)).WellFormed) :
    ctx.Send enc (data :: rest) = ctx.writeResponse
      (match (getResponseBuilder ctx data).Serialize enc with
       | (_, some _) =>
          { Status := 500, ContentType := contentTypeOf "JSON",
            Data := (InternalError ["Failed to serialize output data"]).GetResponseData enc }
       | (serialized, none) =>
          { Status := sendStatus rest,
            ContentType := (getResponseBuilder ctx data).GetContentType, Data := serialized }) := by
  have hstatus : (if (data :: rest).length = 2 then
        (match rest with
          | [.int n] => (.ok n : Except Panic Int)
          | _ => .error .typeAssertion)
      else .ok 200) = .ok (sendStatus rest) := by
    match rest, hwf with
    | [], _ => rfl
    | [s], h =>
      obtain ⟨n, rfl⟩ := h
      rfl
    | _ :: _ :: _, _ => simp [sendStatus]
  unfold Context.Send
  simp only [hstatus]
  rcases hser : (getResponseBuilder ctx data).Serialize enc with ⟨b, _ | e⟩
  · rfl
  · rfl

/-- Every well-formed call is one `writeResponse`, of the call's own status
and body; the status is one `WriteHeader` accepts when the call's is. -/
theorem call_eq_writeResponse (enc : Encoders) (ctx : Context) (c : Call) (hwf : c.WellFormed) :
    ∃ res, c.run enc ctx = ctx.writeResponse res ∧
      (∀ err, c = .error err → res.Status = err.Code ∧ res.Data = err.GetResponseData enc) ∧
      (∀ data rest body, c = .send (data :: rest) →
        (getResponseBuilder ctx data).Serialize enc = (body, none) →
        res.Status = sendStatus rest ∧ res.Data = body) ∧
      (c.ValidStatus → 100 ≤ res.Status ∧ res.Status ≤ 999) := by
  match c, hwf with
  | .error err, _ =>
    refine ⟨_, rfl, ?_, ?_, fun h => h⟩
    · intro e he
      cases he
      exact ⟨rfl, rfl⟩
    · intro data rest body he
      cases he
  | .send (data :: rest), h =>
    have hsend := send_eq_writeResponse enc ctx data rest h
    rcases hser : (getResponseBuilder ctx data).Serialize enc with ⟨b, _ | e⟩
    · rw [hser] at hsend
      refine ⟨{ Status := sendStatus rest,
                ContentType := (getResponseBuilder ctx data).GetContentType, Data := b },
        hsend, ?_, ?_, fun hv => hv⟩
      · intro e he
        cases he
      · intro d r body he hser2
        cases he
        rw [hser] at hser2
        cases hser2
        exact ⟨rfl, rfl⟩
    · rw [hser] at hsend
      refine ⟨{ Status := 500, ContentType := contentTypeOf "JSON",
                Data := (InternalError ["Failed to serialize output data"]).GetResponseData enc },
        hsend, ?_, ?_, fun _ => ⟨(by decide : (100 : Int) ≤ 500), (by decide : (500 : Int) ≤ 999)⟩⟩
      · intro e he
        cases he
      · intro d r body he hser2
        cases he
        rw [hser] at hser2
        cases hser2

theorem call_noop_when_sent (enc : Encoders) (ctx : Context) (c : Call) (hwf : c.WellFormed)
    (h : ctx.responseSent = true) : c.run enc ctx = .ok ctx := by
  obtain ⟨res, hres, _⟩ := call_eq_writeResponse enc ctx c hwf
  rw [hres, writeResponse_sent ctx res h]

theorem runCalls_noop_when_sent (enc : Encoders) (cs : List Call) (ctx : Context)
    (hwf : ∀ c ∈ cs, c.WellFormed) (h : ctx.responseSent = true) :
    runCalls enc cs ctx = (ctx, none) := by
  induction cs with
  | nil => rfl
  | cons c cs ih =>
    rw [runCalls, call_noop_when_sent enc ctx c (hwf c (List.mem_cons_self _ _)) h]
    exact ih (fun q hq => hwf q (List.mem_cons_of_mem _ hq))

/-- Any call, well-formed or not, panics, returns the context as it was
because the response is sent, or writes one response. -/
theorem call_panics_or_writes (enc : Encoders) (ctx : Context) (c : Call) :
    (∃ p, c.run enc ctx = .error p) ∨
    (ctx.responseSent = true ∧ c.run enc ctx = .ok ctx) ∨
    (∃ res, ctx.responseSent = false ∧ c.run enc ctx = .ok (ctx.written res)) := by
  have hrun : (∃ p, c.run enc ctx = .error p) ∨ ∃ res, c.run enc ctx = ctx.writeResponse res := by
    cases c with
    | error err => exact Or.inr ⟨_, rfl⟩
    | send params =>
      cases params with
      | nil => exact Or.inl ⟨_, rfl⟩
      | cons data rest =>
        by_cases hwf : (Call.send (data :: rest)).WellFormed
        · exact Or.inr ⟨_, send_eq_writeResponse enc ctx data rest hwf⟩
        · left
          match rest, hwf with
          | [], h => exact absurd trivial h
          | [status], h =>
            have hne : ∀ n, status ≠ .int n := fun n e => h ⟨n, e⟩
            cases status with
            | int n => exact absurd rfl (hne n)
            | _ => exact ⟨_, rfl⟩
          | _ :: _ :: _, h => exact absurd trivial h
  rcases hrun with hp | ⟨res, hres⟩
  · exact Or.inl hp
  · rw [hres]
    rcases writeResponse_cases ctx res with hp | hs | hw
    · exact Or.inl hp
    · exact Or.inr (Or.inl hs)
    · exact Or.inr (Or.inr ⟨res, hw⟩)

/-- Whatever the calls, the transport log only ever grows by one
transmission, and not at all once the response is sent. -/
theorem runCalls_wire (enc : Encoders) (cs : List Call) :
    ∀ ctx : Context,
      (ctx.responseSent = true → (runCalls enc cs ctx).1.Res = ctx.Res) ∧
      ((runCalls enc cs ctx).1.Res.wire = ctx.Res.wire ∨
        ∃ t, (runCalls enc cs ctx).1.Res.wire = ctx.Res.wire ++ [t]) := by
  induction cs with
  | nil => intro ctx; exact ⟨fun _ => rfl, Or.inl rfl⟩
  | cons c cs ih =>
    intro ctx
    rcases call_panics_or_writes enc ctx c with ⟨p, hp⟩ | ⟨hsent, hrun⟩ | ⟨res, hfresh, hrun⟩
    · rw [runCalls, hp]
      exact ⟨fun _ => rfl, Or.inl rfl⟩
    · rw [runCalls, hrun]
      exact ⟨fun _ => (ih ctx).1 hsent, (ih ctx).2⟩
    · rw [runCalls, hrun]
      simp only
      refine ⟨fun h => (by rw [hfresh] at h; cases h), Or.inr
        ⟨⟨ctx.Res.header.Add "Content-Type" res.ContentType, res.Status, res.Data⟩, ?_⟩⟩
      rw [(ih (ctx.written res)).1 rfl]
      rfl

/-- C9: on a context made by `createContext`, whatever `Send` and `Error`
calls follow, at most one transmission is added to the transport log.  When
the calls do not panic by their arguments and the first call's status is one
`WriteHeader` accepts, the one transmission is that of the first call: it
carries the first call's status and body, `responseSent` is true afterwards,
and each later call returns the context as it was, transport log and headers
included.  A first call whose status `WriteHeader` does not accept panics
and nothing reaches the transport. -/
theorem C9_only_first_write_reaches_transport (enc : Encoders) (response : ResponseWriter)
    (request : Request) (calls : List Call) :
    ((runCalls enc calls (createContext response request)).1.Res.wire = response.wire ∨
      ∃ t, (runCalls enc calls (createContext response request)).1.Res.wire
        = response.wire ++ [t]) ∧
    (calls = [] → runCalls enc calls (createContext response request)
      = (createContext response request, none)) ∧
    (∀ first later, calls = first :: later → first.WellFormed → first.ValidStatus →
      (∀ c ∈ later, c.WellFormed) →
      ∃ ctx1 t,
        first.run enc (createContext response request) = .ok ctx1 ∧
        runCalls enc calls (createContext response request) = (ctx1, none) ∧
        ctx1.responseSent = true ∧
        ctx1.Res.wire = response.wire ++ [t] ∧
        ctx1.Res.header = t.headers ∧
        (∀ err, first = .error err → t.status = err.Code ∧ t.body = err.GetResponseData enc) ∧
        (∀ data rest body, first = .send (data :: rest) →
          (getResponseBuilder (createContext response request) data).Serialize enc
            = (body, none) →
          t.status = sendStatus rest ∧ t.body = body) ∧
        (∀ c ∈ later, c.run enc ctx1 = .ok ctx1)) ∧
    (∀ err later, calls = .error err :: later → (err.Code < 100 ∨ 999 < err.Code) →
      runCalls enc calls (createContext response request)
        = (createContext response request, some (.invalidWriteHeaderCode err.Code))) ∧
    (∀ data n body later, calls = .send [data, .int n] :: later →
      (getResponseBuilder (createContext response request) data).Serialize enc = (body, none) →
      (n < 100 ∨ 999 < n) →
      runCalls enc calls (createContext response request)
        = (createContext response request, some (.invalidWriteHeaderCode n))) := by
  have hfresh : (createContext response request).responseSent = false := rfl
  refine ⟨(runCalls_wire enc calls (createContext response request)).2, ?_, ?_, ?_, ?_⟩
  · intro h
    rw [h]
    rfl
  · intro first later hcalls hfirst hvalid hlater
    subst hcalls
    obtain ⟨res, hrun, herr, hsend, hstatus⟩ :=
      call_eq_writeResponse enc (createContext response request) first hfirst
    have hw := writeResponse_fresh (createContext response request) res hfresh
      (hstatus hvalid).1 (hstatus hvalid).2
    rw [hw] at hrun
    refine ⟨(createContext response request).written res,
      ⟨response.header.Add "Content-Type" res.ContentType, res.Status, res.Data⟩,
      hrun, ?_, rfl, rfl, rfl, herr, hsend, ?_⟩
    · rw [runCalls, hrun]
      exact runCalls_noop_when_sent enc later _ hlater rfl
    · intro c hc
      exact call_noop_when_sent enc _ c (hlater c hc) rfl
  · intro err later hcalls hbad
    subst hcalls
    have hrun : (Call.error err).run enc (createContext response request)
        = .error (.invalidWriteHeaderCode err.Code) :=
      writeResponse_invalid (createContext response request) _ hfresh hbad
    rw [runCalls, hrun]
  · intro data n body later hcalls hser hbad
    subst hcalls
    have hrun : (Call.send [data, .int n]).run enc (createContext response request)
        = .error (.invalidWriteHeaderCode n) := by
      have hsend := send_eq_writeResponse enc (createContext response request) data [.int n]
        ⟨n, rfl⟩
      rw [hser] at hsend
      show (createContext response request).Send enc [data, .int n] = _
      rw [hsend]
      exact writeResponse_invalid (createContext response request) _ hfresh hbad
    rw [runCalls, hrun]

/-- C9, witness: `Send("hello")`, then `Send("again", 201)` and
`Error(NotFoundError())` on a fresh context. -/
theorem C9_witness :
    ∃ ctx1 t,
      (Call.send [.str "hello"]).run sampleEncoders (sampleContext "GET" "/") = .ok ctx1 ∧
      runCalls sampleEncoders
        [.send [.str "hello"], .send [.str "again", .int 201], .error (NotFoundError [])]
        (sampleContext "GET" "/") = (ctx1, none) ∧
      ctx1.responseSent = true ∧
      ctx1.Res.wire = [] ++ [t] ∧
      ctx1.Res.header = t.headers ∧
      (∀ err, Call.send [.str "hello"] = .error err →
        t.status = err.Code ∧ t.body = err.GetResponseData sampleEncoders) ∧
      (∀ data rest body, Call.send [.str "hello"] = .send (data :: rest) →
        (getResponseBuilder (sampleContext "GET" "/") data).Serialize sampleEncoders
          = (body, none) →
        t.status = sendStatus rest ∧ t.body = body) ∧
      (∀ c ∈ [Call.send [.str "again", .int 201], Call.error (NotFoundError [])],
        c.run sampleEncoders ctx1 = .ok ctx1) :=
  (C9_only_first_write_reaches_transport sampleEncoders ⟨[], []⟩ (sampleRequest "GET" "/")
    [.send [.str "hello"], .send [.str "again", .int 201], .error (NotFoundError [])]).2.2.1
    (.send [.str "hello"]) [.send [.str "again", .int 201], .error (NotFoundError [])] rfl
    trivial ⟨by decide, by decide⟩
    (by
      intro c hc
      simp only [List.mem_cons, List.mem_singleton, List.not_mem_nil, or_false] at hc
      rcases hc with rfl | rfl
      · exact ⟨201, rfl⟩
      · trivial)

/-! ## Groups -/

/-- The placeholder expression of `addRoute` compiles, so `regexp.MustCompile`
does not panic, and `placeholderRe` is what it returns. -/
theorem placeholderRe_compiles : regexp.compile placeholderPattern = .ok placeholderRe := by
  rfl

theorem addRoute_routes (router : Router) (method path : String) (handlers : List RouteHandler) :
    ∃ r, (addRoute router method path handlers).routes = router.routes ++ [r] ∧
      r.Method = method ∧ r.Handlers = handlers ∧
      (addRoute router method path handlers).group = router.group :=
  ⟨_, rfl, rfl, rfl, rfl⟩

/-- The routes `Use` appends, in order: method of the group's route and the
handler slice `append` produced for it. -/
theorem use_routes (groupRouter : Router) (hsOf : Route → List RouteHandler) (rs : List Route) :
    ∀ router : Router,
      (((rs.foldl (fun (router : Router) (route : Route) =>
          addRoute router route.Method
            (groupRouter.group.Prefix ++ "/" ++ TrimPrefix route.URI "/") (hsOf route))
          router).routes.map (fun r => (r.Method, r.Handlers)))
        = router.routes.map (fun r => (r.Method, r.Handlers))
            ++ rs.map (fun route => (route.Method, hsOf route))) := by
  induction rs with
  | nil => intro router; simp
  | cons r rs ih =>
    intro router
    rw [List.foldl_cons, ih]
    simp [addRoute]

/-- When the middleware slice has no spare capacity every `append` allocates,
and `Use` adds, after the receiver's routes and in order, one route per
group route with that route's method and the chain middleware followed by
the route's own handlers. -/
theorem use_without_spare_capacity (router groupRouter : Router)
    (hcap : groupRouter.group.middlewareSpare = 0) :
    (router.Use groupRouter).routes.map (fun r => (r.Method, r.Handlers))
      = router.routes.map (fun r => (r.Method, r.Handlers))
        ++ groupRouter.routes.map (fun route =>
            (route.Method, groupRouter.group.Middleware ++ route.Handlers)) := by
  unfold Router.Use
  rw [use_routes]
  congr 1
  apply List.map_congr_left
  intro route _
  by_cases h : route.Handlers.length ≤ groupRouter.group.middlewareSpare
  · have h0 : route.Handlers = [] := by
      rw [hcap] at h
      exact List.length_eq_zero.mp (Nat.le_zero.mp h)
    simp [h0]
  · simp [h]

/-- C10, failing input: the group `/api` has the middleware slice
`[middlewareAuth]` with one unused slot and the routes `GET /a` with
`handlerGet` and `GET /b` with `handlerDelete`.  After `Use` on an empty
router the first added route does not carry `middlewareAuth, handlerGet`:
both appends wrote into the same backing array, and both added routes read
`middlewareAuth, handlerDelete`. -/
theorem C10_append_shares_backing_array :
    apiGroupSpare.routes.map (fun r => (r.Method, r.URI)) = [("GET", "/a"), ("GET", "/b")] ∧
    apiGroupSpare.routes.map (fun r => r.Handlers) = [[handlerGet], [handlerDelete]] ∧
    (Initialize.Use apiGroupSpare).routes.map (fun r => (r.Method, r.URI, r.pattern))
      = [("GET", "/api/a", "^/api/a$"), ("GET", "/api/b", "^/api/b$")] ∧
    (Initialize.Use apiGroupSpare).routes.map (fun r => r.Handlers)
      = [[middlewareAuth, handlerDelete], [middlewareAuth, handlerDelete]] ∧
    (Initialize.Use apiGroupSpare).routes.map (fun r => r.Handlers)
      ≠ apiGroupSpare.routes.map (fun r => apiGroupSpare.group.Middleware ++ r.Handlers) := by
  have h : (Initialize.Use apiGroupSpare).routes.map (fun r => r.Handlers)
      = [[middlewareAuth, handlerDelete], [middlewareAuth, handlerDelete]] := by rfl
  refine ⟨by decide, by rfl, by decide, h, ?_⟩
  rw [h]
  intro heq
  have h2 : [[middlewareAuth, handlerDelete], [middlewareAuth, handlerDelete]]
      = [[middlewareAuth, handlerGet], [middlewareAuth, handlerDelete]] := heq
  have h3 := (List.cons.inj (List.cons.inj (List.cons.inj h2).1).2).1
  exact handlerGet_ne_handlerDelete h3.symm

/-! ## Compiling the pattern of a literal/placeholder template -/

namespace regexp

theorem run_append (st : PState) (xs ys : List Char) :
    run st (xs ++ ys) = match run st xs with
      | .ok st' => run st' ys
      | .error e => .error e := by
  induction xs generalizing st with
  | nil => rfl
  | cons c cs ih =>
    simp only [List.cons_append, run]
    cases step st c with
    | error e => rfl
    | ok st' => exact ih st'

theorem step_literal (top : Frame) (parents : List Frame) (n : Nat) (c : Char)
    (hc : c ∉ regexMeta) :
    step ⟨top, parents, n, .normal⟩ c
      = .ok ⟨{ top with items := .char c :: top.items }, parents, n, .normal⟩ := by
  simp only [regexMeta, List.mem_cons, List.mem_singleton, List.not_mem_nil, not_or,
    or_false] at hc
  obtain ⟨h1, h2, h3, h4, h5, h6, h7, h8, h9, h10, h11, h12, h13, h14⟩ := hc
  simp [step, stepNormal, PState.push, h1, h2, h3, h4, h5, h6, h7, h8, h9, h10, h11, h12, h13, h14]

theorem run_literals (t : List Char) (ht : ∀ c ∈ t, c ∉ regexMeta) :
    ∀ (top : Frame) (parents : List Frame) (n : Nat),
    run ⟨top, parents, n, .normal⟩ t
      = .ok ⟨{ top with items := (t.map Regex.char).reverse ++ top.items }, parents, n, .normal⟩ := by
  induction t with
  | nil => intro top parents n; rfl
  | cons c cs ih =>
    intro top parents n
    rw [run, step_literal top parents n c (ht c (List.mem_cons_self _ _))]
    simp only
    rw [ih (fun d hd => ht d (List.mem_cons_of_mem _ hd))]
    simp

theorem run_placeholderGroup (top : Frame) (parents : List Frame) (n : Nat) :
    run ⟨top, parents, n, .normal⟩ replacementText.data
      = .ok ⟨{ top with items := placeholderGroup (n + 1) :: top.items }, parents, n + 1,
          .normal⟩ := by
  rfl

end regexp

theorem run_segmentPattern (segs : List Segment) (hwf : ∀ s ∈ segs, s.WellFormed) :
    ∀ (top : regexp.Frame) (parents : List regexp.Frame) (k : Nat),
    regexp.run ⟨top, parents, k, .normal⟩ (segmentPattern segs)
      = .ok ⟨{ top with items := (segmentItems k segs).reverse ++ top.items }, parents,
          k + (placeholderNames segs).length, .normal⟩ := by
  induction segs with
  | nil => intro top parents k; rfl
  | cons s segs ih =>
    intro top parents k
    have hrest : ∀ s ∈ segs, s.WellFormed := fun q hq => hwf q (List.mem_cons_of_mem _ hq)
    cases s with
    | lit t =>
      have ht : ∀ c ∈ t, c ∉ regexMeta := hwf (.lit t) (List.mem_cons_self _ _)
      have hslash : ('/' : Char) ∉ regexMeta := by decide
      simp only [segmentPattern, segmentItems, placeholderNames, List.cons_append]
      rw [regexp.run, regexp.step_literal top parents k '/' hslash]
      simp only
      rw [regexp.run_append, regexp.run_literals t ht]
      simp only
      rw [ih hrest]
      simp
    | var n =>
      have hslash : ('/' : Char) ∉ regexMeta := by decide
      simp only [segmentPattern, segmentItems, placeholderNames, List.cons_append]
      rw [regexp.run, regexp.step_literal top parents k '/' hslash]
      simp only
      rw [regexp.run_append, regexp.run_placeholderGroup]
      simp only
      rw [ih hrest]
      simp [Nat.add_assoc, Nat.add_comm 1]

/-- The pattern built for a well-formed literal/placeholder template compiles
to the anchored sequence of its segments' items. -/
theorem compile_segmentPattern (segs : List Segment) (hwf : ∀ s ∈ segs, s.WellFormed) :
    regexp.compile ("^" ++ String.mk (segmentPattern segs) ++ "$")
      = .ok ⟨regexp.mkSeq (.bol :: segmentItems 0 segs ++ [.eol]),
          (placeholderNames segs).length⟩ := by
  have hdata : ("^" ++ String.mk (segmentPattern segs) ++ "$").data
      = '^' :: (segmentPattern segs ++ ['$']) := by
    simp [String.data_append]
  unfold regexp.compile
  rw [hdata, regexp.run]
  have h1 : regexp.step regexp.PState.init '^'
      = .ok ⟨⟨none, [], [.bol]⟩, [], 0, .normal⟩ := by rfl
  rw [h1]
  simp only
  rw [regexp.run_append, run_segmentPattern segs hwf]
  simp only
  have h2 : ∀ items : List regexp.Regex,
      regexp.run ⟨⟨none, [], items⟩, [], 0 + (placeholderNames segs).length, .normal⟩ ['$']
        = .ok ⟨⟨none, [], .eol :: items⟩, [], 0 + (placeholderNames segs).length, .normal⟩ := by
    intro items; rfl
  rw [h2]
  simp [regexp.finish, regexp.closeFrame, regexp.mkAlt]

/-! ## Matching a concrete path against the compiled pattern -/

theorem substitute_head (segs : List Segment) (vals : List (List Char)) :
    substitute segs vals = [] ∨ ∃ cs, substitute segs vals = '/' :: cs := by
  cases segs with
  | nil => left; cases vals <;> rfl
  | cons s segs =>
    right
    cases s with
    | lit t => exact ⟨_, rfl⟩
    | var n =>
      cases vals with
      | nil => exact ⟨_, rfl⟩
      | cons v vals => exact ⟨_, rfl⟩

namespace regexp

theorem matchAll_seq (a b : Regex) (s : MState) :
    matchAll (.seq a b) s = (matchAll a s).flatMap (matchAll b) := by
  rw [matchAll]

theorem matchAll_char_same (c : Char) (pos : Nat) (cs : List Char)
    (caps : List (Option (List Char))) :
    matchAll (.char c) ⟨pos, c :: cs, caps⟩ = [⟨pos + 1, cs, caps⟩] := by
  simp [matchAll]

theorem matchAll_char_other (c d : Char) (pos : Nat) (cs : List Char)
    (caps : List (Option (List Char))) (h : d ≠ c) :
    matchAll (.char c) ⟨pos, d :: cs, caps⟩ = [] := by
  simp [matchAll, h]

theorem matchAll_char_nil (c : Char) (pos : Nat) (caps : List (Option (List Char))) :
    matchAll (.char c) ⟨pos, [], caps⟩ = [] := by
  simp [matchAll]

theorem matchAll_nonslash (c : Char) (hc : c ≠ '/') (pos : Nat) (cs : List Char)
    (caps : List (Option (List Char))) :
    matchAll (.cls true [('/', '/')]) ⟨pos, c :: cs, caps⟩ = [⟨pos + 1, cs, caps⟩] := by
  have hin : inRanges c [('/', '/')] = false := by
    simp only [inRanges, List.any_cons, List.any_nil, Bool.or_false,
      Bool.and_eq_false_iff, decide_eq_false_iff_not]
    by_contra hcon
    push_neg at hcon
    exact hc (Char.le_antisymm hcon.2 hcon.1)
  simp [matchAll, hin]

theorem matchAll_nonslash_slash (pos : Nat) (cs : List Char) (caps : List (Option (List Char))) :
    matchAll (.cls true [('/', '/')]) ⟨pos, '/' :: cs, caps⟩ = [] := by
  simp [matchAll, inRanges]

theorem matchAll_nonslash_nil (pos : Nat) (caps : List (Option (List Char))) :
    matchAll (.cls true [('/', '/')]) ⟨pos, [], caps⟩ = [] := by
  simp [matchAll]

/-- A lazy, unbounded repetition of a step `f` that takes one character of a
run `w` at a time and cannot go past it: a continuation that rejects every
stop inside the run is entered exactly once, at the end of the run. -/
theorem iterOpt_lazy_run (f K : MState → List MState) (tail : List Char)
    (hstop : ∀ pos caps, f ⟨pos, tail, caps⟩ = []) (w : List Char)
    (hf : ∀ c ∈ w, ∀ pos cs caps, f ⟨pos, c :: cs, caps⟩ = [⟨pos + 1, cs, caps⟩])
    (hK : ∀ c ∈ w, ∀ pos cs caps, K ⟨pos, c :: cs, caps⟩ = []) :
    ∀ (fuel pos : Nat) (caps : List (Option (List Char))), w.length ≤ fuel →
      (iterOpt f false fuel none ⟨pos, w ++ tail, caps⟩).flatMap K
        = K ⟨pos + w.length, tail, caps⟩ := by
  induction w with
  | nil =>
    intro fuel pos caps _
    cases fuel with
    | zero => simp [iterOpt]
    | succ n => simp [iterOpt, hstop]
  | cons c w ih =>
    intro fuel pos caps hfuel
    cases fuel with
    | zero => simp at hfuel
    | succ n =>
      have hn : w.length ≤ n := by simpa using hfuel
      have hK0 : K ⟨pos, c :: (w ++ tail), caps⟩ = [] := hK c (List.mem_cons_self _ _) _ _ _
      have hf0 : f ⟨pos, c :: (w ++ tail), caps⟩ = [⟨pos + 1, w ++ tail, caps⟩] :=
        hf c (List.mem_cons_self _ _) _ _ _
      have ih' := ih (fun d hd => hf d (List.mem_cons_of_mem _ hd))
        (fun d hd => hK d (List.mem_cons_of_mem _ hd)) n (pos + 1) caps hn
      simp only [List.cons_append, iterOpt, hf0]
      simp only [reduceCtorEq, if_false, Bool.false_eq_true, List.filter_cons, List.length_cons,
        Nat.lt_succ_self, decide_True, if_true, List.filter_nil, List.flatMap_cons,
        List.flatMap_nil, List.append_nil, hK0, List.nil_append, Option.map_none']
      rw [ih']
      simp [Nat.add_assoc, Nat.add_comm 1]

/-- Literal characters of the pattern consume the same characters of the input. -/
theorem matchAll_literals (t : List Char) (items : List Regex) :
    ∀ (pos : Nat) (inp : List Char) (caps : List (Option (List Char))),
    matchAll (mkSeq (t.map .char ++ items)) ⟨pos, t ++ inp, caps⟩
      = matchAll (mkSeq items) ⟨pos + t.length, inp, caps⟩ := by
  induction t with
  | nil => intro pos inp caps; rfl
  | cons c cs ih =>
    intro pos inp caps
    show matchAll (.seq (.char c) (mkSeq (cs.map .char ++ items))) ⟨pos, c :: (cs ++ inp), caps⟩ = _
    rw [matchAll_seq, matchAll_char_same]
    simp only [List.flatMap_cons, List.flatMap_nil, List.append_nil]
    rw [ih]
    simp [Nat.add_assoc, Nat.add_comm 1]

end regexp

/-- What follows a placeholder in the pattern cannot start on a character
other than a slash. -/
theorem matchAll_items_nonslash (k : Nat) (segs : List Segment) (c : Char) (hc : c ≠ '/')
    (pos : Nat) (cs : List Char) (caps : List (Option (List Char))) :
    regexp.matchAll (regexp.mkSeq (segmentItems k segs ++ [.eol])) ⟨pos, c :: cs, caps⟩ = [] := by
  cases segs with
  | nil => simp [segmentItems, regexp.mkSeq, regexp.matchAll]
  | cons seg segs =>
    cases seg with
    | lit t =>
      show regexp.matchAll (.seq (.char '/') _) _ = _
      rw [regexp.matchAll_seq, regexp.matchAll_char_other _ _ _ _ _ hc]
      rfl
    | var n =>
      show regexp.matchAll (.seq (.char '/') _) _ = _
      rw [regexp.matchAll_seq, regexp.matchAll_char_other _ _ _ _ _ hc]
      rfl

namespace regexp

theorem matchAll_group (k : Nat) (r : Regex) (s : MState) :
    matchAll (.group k r) s = (matchAll r s).map (fun t =>
      { t with caps := t.caps.set (k - 1) (some (s.rest.take (s.rest.length - t.rest.length))) }) := by
  rw [matchAll]

theorem matchAll_empty (s : MState) : matchAll .empty s = [s] := by
  rw [matchAll]

theorem matchAll_plus_lazy (r : Regex) (s : MState) :
    matchAll (.rept 1 none false r) s
      = (matchAll r s).flatMap (fun t => iterOpt (matchAll r) false t.rest.length none t) := by
  rw [matchAll]
  rfl

theorem matchAll_star_lazy (r : Regex) (s : MState) :
    matchAll (.rept 0 none false r) s = iterOpt (matchAll r) false s.rest.length none s := by
  rw [matchAll]
  rfl

theorem flatMap_matchAll_empty (l : List MState) : l.flatMap (matchAll .empty) = l := by
  induction l with
  | nil => rfl
  | cons a l ih => simp [List.flatMap_cons, matchAll_empty, ih]

theorem flatMap_map_eq {α β γ : Type} (l : List α) (f : α → β) (g : β → List γ) :
    (l.map f).flatMap g = l.flatMap (fun a => g (f a)) := by
  induction l with
  | nil => rfl
  | cons a l ih => simp [List.flatMap_cons, ih]

end regexp

/-- The group `([^\/]+?)` followed by `R` takes exactly a non-empty slash-free
value that is followed by a slash or the end of the input, when `R` cannot
start on a non-slash character. -/
theorem matchAll_placeholderGroup (k : Nat) (R : regexp.Regex)
    (hR : ∀ c, c ≠ '/' → ∀ pos cs caps, regexp.matchAll R ⟨pos, c :: cs, caps⟩ = [])
    (v tail : List Char) (hv : ValueOK v) (htail : tail = [] ∨ ∃ cs, tail = '/' :: cs)
    (pos : Nat) (caps : List (Option (List Char))) :
    regexp.matchAll (.seq (placeholderGroup (k + 1)) R) ⟨pos, v ++ tail, caps⟩
      = regexp.matchAll R ⟨pos + v.length, tail, caps.set k (some v)⟩ := by
  obtain ⟨hne, hslash⟩ := hv
  cases v with
  | nil => exact absurd rfl hne
  | cons c w =>
    have hc : c ≠ '/' := fun h => hslash (by simp [h])
    have hw : ∀ d ∈ w, d ≠ '/' := fun d hd h => hslash (by rw [← h]; exact List.mem_cons_of_mem _ hd)
    have hstop : ∀ pos caps, regexp.matchAll (.cls true [('/', '/')]) ⟨pos, tail, caps⟩ = [] := by
      intro pos caps
      rcases htail with h | ⟨cs, h⟩
      · rw [h]; exact regexp.matchAll_nonslash_nil _ _
      · rw [h]; exact regexp.matchAll_nonslash_slash _ _ _
    unfold placeholderGroup
    rw [regexp.matchAll_seq, regexp.matchAll_group, regexp.matchAll_seq,
      regexp.flatMap_matchAll_empty, regexp.matchAll_plus_lazy, regexp.flatMap_map_eq]
    simp only [List.cons_append]
    rw [regexp.matchAll_nonslash c hc]
    simp only [List.flatMap_cons, List.flatMap_nil, List.append_nil]
    have key := regexp.iterOpt_lazy_run (regexp.matchAll (.cls true [('/', '/')]))
      (fun a => regexp.matchAll R
        { pos := a.pos, rest := a.rest,
          caps := a.caps.set (k + 1 - 1)
            (some (List.take ((c :: (w ++ tail)).length - a.rest.length) (c :: (w ++ tail)))) })
      tail hstop w
      (fun d hd pos cs caps => regexp.matchAll_nonslash d (hw d hd) pos cs caps)
      (fun d hd pos cs caps => hR d (hw d hd) _ _ _) (w ++ tail).length (pos + 1) caps (by simp)
    rw [key]
    have htake : (c :: (w ++ tail)).take ((c :: (w ++ tail)).length - tail.length) = c :: w := by
      have : (c :: (w ++ tail)).length - tail.length = (c :: w).length := by
        simp only [List.length_cons, List.length_append]
        omega
      rw [this]
      exact List.take_left' rfl
    show regexp.matchAll R ⟨pos + 1 + w.length, tail, caps.set (k + 1 - 1)
      (some (List.take ((c :: (w ++ tail)).length - tail.length) (c :: (w ++ tail))))⟩ = _
    rw [htake]
    have hpos : pos + 1 + w.length = pos + (c :: w).length := by
      simp only [List.length_cons]
      omega
    rw [hpos]
    rfl

/-- The items of the segments, followed by the end anchor, match the path
that substitutes the values, in exactly one way, capturing the values. -/
theorem matchAll_segmentItems (segs : List Segment) :
    ∀ (vals done : List (List Char)) (pos : Nat),
      vals.length = (placeholderNames segs).length → (∀ v ∈ vals, ValueOK v) →
      regexp.matchAll (regexp.mkSeq (segmentItems done.length segs ++ [.eol]))
          ⟨pos, substitute segs vals, done.map some ++ List.replicate vals.length none⟩
        = [⟨pos + (substitute segs vals).length, [], (done ++ vals).map some⟩] := by
  induction segs with
  | nil =>
    intro vals done pos hlen _
    have : vals = [] := List.length_eq_zero.mp (by simpa [placeholderNames] using hlen)
    subst this
    simp [segmentItems, substitute, regexp.mkSeq, regexp.matchAll]
  | cons seg segs ih =>
    intro vals done pos hlen hvals
    cases seg with
    | lit t =>
      have h := ih vals done (pos + 1 + t.length) (by simpa [placeholderNames] using hlen) hvals
      have e1 : segmentItems done.length (.lit t :: segs) ++ [regexp.Regex.eol]
          = .char '/' :: (t.map .char ++ (segmentItems done.length segs ++ [.eol])) := by
        simp [segmentItems]
      have e2 : substitute (.lit t :: segs) vals = '/' :: (t ++ substitute segs vals) := rfl
      rw [e1, e2, regexp.mkSeq]
      rw [regexp.matchAll_seq, regexp.matchAll_char_same]
      simp only [List.flatMap_cons, List.flatMap_nil, List.append_nil]
      rw [regexp.matchAll_literals, h]
      simp [substitute, Nat.add_assoc, Nat.add_comm 1]
    | var n =>
      cases vals with
      | nil => simp [placeholderNames] at hlen
      | cons v vals =>
        have hv : ValueOK v := hvals v (List.mem_cons_self _ _)
        have hvals' : ∀ u ∈ vals, ValueOK u := fun u hu => hvals u (List.mem_cons_of_mem _ hu)
        have hlen' : vals.length = (placeholderNames segs).length := by
          simpa [placeholderNames] using hlen
        have h := ih vals (done ++ [v]) (pos + 1 + v.length) hlen' hvals'
        have hk : (done ++ [v]).length = done.length + 1 := by simp
        rw [hk] at h
        have e1 : segmentItems done.length (.var n :: segs) ++ [regexp.Regex.eol]
            = .char '/' :: placeholderGroup (done.length + 1)
                :: (segmentItems (done.length + 1) segs ++ [.eol]) := by
          simp [segmentItems]
        have e2 : substitute (.var n :: segs) (v :: vals)
            = '/' :: (v ++ substitute segs vals) := rfl
        rw [e1, e2, regexp.mkSeq, regexp.mkSeq]
        rw [regexp.matchAll_seq, regexp.matchAll_char_same]
        simp only [List.flatMap_cons, List.flatMap_nil, List.append_nil]
        rw [matchAll_placeholderGroup done.length _
          (fun c hc pos cs caps => matchAll_items_nonslash _ segs c hc pos cs caps)
          v _ hv (substitute_head segs vals)]
        have hset : (List.map some done ++ List.replicate (v :: vals).length none).set
            done.length (some v)
            = List.map some (done ++ [v]) ++ List.replicate vals.length none := by
          simp [List.replicate_succ]
        rw [hset, h]
        simp [substitute, Nat.add_assoc, Nat.add_comm 1]

/-- The compiled pattern of the segments finds, in the path that substitutes
the values, the whole path and the values as submatches. -/
theorem findStringSubmatch_segments (segs : List Segment) (vals : List (List Char))
    (hlen : vals.length = (placeholderNames segs).length) (hvals : ∀ v ∈ vals, ValueOK v) :
    regexp.FindStringSubmatch
        ⟨regexp.mkSeq (.bol :: segmentItems 0 segs ++ [.eol]), (placeholderNames segs).length⟩
        (String.mk (substitute segs vals))
      = some (String.mk (substitute segs vals) :: vals.map String.mk) := by
  have hall : regexp.matchAll (regexp.mkSeq (.bol :: segmentItems 0 segs ++ [.eol]))
      ⟨0, substitute segs vals, List.replicate (placeholderNames segs).length none⟩
      = [⟨(substitute segs vals).length, [], vals.map some⟩] := by
    have h := matchAll_segmentItems segs vals [] 0 hlen hvals
    simp only [List.length_nil, List.map_nil, List.nil_append, Nat.zero_add] at h
    rw [List.cons_append, regexp.mkSeq, regexp.matchAll_seq]
    have hbol : regexp.matchAll .bol
        ⟨0, substitute segs vals, List.replicate (placeholderNames segs).length none⟩
        = [⟨0, substitute segs vals, List.replicate (placeholderNames segs).length none⟩] := by
      simp [regexp.matchAll]
    rw [hbol, ← hlen]
    simp only [List.flatMap_cons, List.flatMap_nil, List.append_nil]
    exact h
  have hat : regexp.matchAt
      ⟨regexp.mkSeq (.bol :: segmentItems 0 segs ++ [.eol]), (placeholderNames segs).length⟩
      0 (substitute segs vals)
      = some ⟨0, substitute segs vals, vals.map some, []⟩ := by
    unfold regexp.matchAt
    simp only [hall]
    simp
  have hsearch : regexp.search
      ⟨regexp.mkSeq (.bol :: segmentItems 0 segs ++ [.eol]), (placeholderNames segs).length⟩
      0 (substitute segs vals)
      = some ⟨0, substitute segs vals, vals.map some, []⟩ := by
    cases hp : substitute segs vals with
    | nil =>
      rw [hp] at hat
      rw [regexp.search, hat]
    | cons c cs =>
      rw [hp] at hat
      rw [regexp.search, hat]
  unfold regexp.FindStringSubmatch
  simp only [hsearch, Option.map_some', regexp.Match.strings]
  simp [Function.comp_def]

/-! ## Finding the placeholders of a template -/

namespace regexp

theorem pieces_skip (re : Regexp) (pos k : Nat) (adj : Bool) (c : Char) (cs : List Char) :
    pieces re pos (k + 1) adj (c :: cs) = pieces re (pos + 1) k adj cs := by
  rw [pieces]

theorem pieces_text (re : Regexp) (pos : Nat) (adj : Bool) (c : Char) (cs : List Char)
    (h : matchAt re pos (c :: cs) = none) :
    pieces re pos 0 adj (c :: cs) = .text c :: pieces re (pos + 1) 0 false cs := by
  rw [pieces, h]

theorem pieces_matched (re : Regexp) (pos : Nat) (adj : Bool) (c : Char) (cs : List Char)
    (m : Match) (h : matchAt re pos (c :: cs) = some m) (hne : m.text.isEmpty = false) :
    pieces re pos 0 adj (c :: cs)
      = .matched m :: pieces re (pos + 1) (m.text.length - 1) true cs := by
  rw [pieces, h]
  simp [hne]

theorem pieces_nil (re : Regexp) (pos k : Nat) (adj : Bool) (h : matchAt re pos [] = none) :
    pieces re pos k adj [] = [] := by
  rw [pieces, h]

theorem pieces_skip_all (re : Regexp) (xs ys : List Char) :
    ∀ (pos : Nat) (adj : Bool),
      pieces re pos xs.length adj (xs ++ ys) = pieces re (pos + xs.length) 0 adj ys := by
  induction xs with
  | nil => intro pos adj; rfl
  | cons x xs ih =>
    intro pos adj
    rw [List.length_cons, List.cons_append, pieces_skip, ih]
    congr 1
    omega

/-- A lazy, unbounded repetition of a step `f` that takes the characters of
`w` one at a time: when the continuation rejects every stop inside `w`, the
preferred results are those of the continuation entered at the end of `w`. -/
theorem iterOpt_lazy_first (f K : MState → List MState) (tail : List Char) (w : List Char)
    (hf : ∀ c ∈ w, ∀ pos cs caps, f ⟨pos, c :: cs, caps⟩ = [⟨pos + 1, cs, caps⟩])
    (hK : ∀ c ∈ w, ∀ pos cs caps, K ⟨pos, c :: cs, caps⟩ = []) :
    ∀ (fuel pos : Nat) (caps : List (Option (List Char))), w.length ≤ fuel →
      ∃ tl, (iterOpt f false fuel none ⟨pos, w ++ tail, caps⟩).flatMap K
        = K ⟨pos + w.length, tail, caps⟩ ++ tl := by
  induction w with
  | nil =>
    intro fuel pos caps _
    cases fuel with
    | zero => exact ⟨[], by simp [iterOpt]⟩
    | succ n =>
      simp only [List.nil_append, iterOpt, reduceCtorEq, if_false, Bool.false_eq_true,
        List.flatMap_cons, List.length_nil, Nat.add_zero]
      exact ⟨_, rfl⟩
  | cons c w ih =>
    intro fuel pos caps hfuel
    cases fuel with
    | zero => simp at hfuel
    | succ n =>
      have hn : w.length ≤ n := by simpa using hfuel
      have hK0 : K ⟨pos, c :: (w ++ tail), caps⟩ = [] := hK c (List.mem_cons_self _ _) _ _ _
      have hf0 : f ⟨pos, c :: (w ++ tail), caps⟩ = [⟨pos + 1, w ++ tail, caps⟩] :=
        hf c (List.mem_cons_self _ _) _ _ _
      obtain ⟨tl, htl⟩ := ih (fun d hd => hf d (List.mem_cons_of_mem _ hd))
        (fun d hd => hK d (List.mem_cons_of_mem _ hd)) n (pos + 1) caps hn
      refine ⟨tl, ?_⟩
      simp only [List.cons_append, iterOpt, hf0]
      simp only [reduceCtorEq, if_false, Bool.false_eq_true, List.filter_cons, List.length_cons,
        Nat.lt_succ_self, decide_True, if_true, List.filter_nil, List.flatMap_cons,
        List.flatMap_nil, List.append_nil, hK0, List.nil_append, Option.map_none']
      rw [htl]
      simp [Nat.add_assoc, Nat.add_comm 1]

theorem matchAll_any (c : Char) (hc : c ≠ '\n') (pos : Nat) (cs : List Char)
    (caps : List (Option (List Char))) :
    matchAll .any ⟨pos, c :: cs, caps⟩ = [⟨pos + 1, cs, caps⟩] := by
  simp [matchAll, hc]

end regexp

theorem matchAt_placeholder_nil (pos : Nat) : regexp.matchAt placeholderRe pos [] = none := by
  rfl

theorem matchAt_placeholder_other (pos : Nat) (c : Char) (cs : List Char) (hc : c ≠ '{') :
    regexp.matchAt placeholderRe pos (c :: cs) = none := by
  unfold regexp.matchAt placeholderRe
  simp only [regexp.matchAll_seq, regexp.matchAll_char_other _ _ _ _ _ hc, List.flatMap_nil]

/-- At an opening brace followed by a name and the closing brace, the
placeholder expression matches the braces with the name between them. -/
theorem matchAt_placeholder (pos : Nat) (n rest : List Char)
    (hn : ∀ c ∈ n, c ≠ '}' ∧ c ≠ '\n') :
    regexp.matchAt placeholderRe pos ('{' :: (n ++ '}' :: rest))
      = some ⟨pos, '{' :: n ++ ['}'], [some n], rest⟩ := by
  have key := regexp.iterOpt_lazy_first (regexp.matchAll .any)
    (fun a => regexp.matchAll (.seq (.char '}') .empty)
      { pos := a.pos, rest := a.rest,
        caps := a.caps.set (1 - 1)
          (some (List.take ((n ++ '}' :: rest).length - a.rest.length) (n ++ '}' :: rest))) })
    ('}' :: rest) n
    (fun c hc pos cs caps => regexp.matchAll_any c (hn c hc).2 pos cs caps)
    (fun c hc pos cs caps => by
      show regexp.matchAll (.seq (.char '}') .empty) _ = _
      rw [regexp.matchAll_seq, regexp.matchAll_char_other _ _ _ _ _ (hn c hc).1]
      rfl)
    (n ++ '}' :: rest).length (pos + 1) [none] (by simp)
  obtain ⟨tl, htl⟩ := key
  have hall : regexp.matchAll placeholderRe.ast
      ⟨pos, '{' :: (n ++ '}' :: rest), List.replicate placeholderRe.ncap none⟩
      = ⟨pos + 1 + n.length + 1, rest, [some n]⟩ :: tl := by
    show regexp.matchAll (.seq (.char '{') (.seq (.group 1 (.seq (.rept 0 none false .any) .empty))
      (.seq (.char '}') .empty))) ⟨pos, '{' :: (n ++ '}' :: rest), [none]⟩ = _
    rw [regexp.matchAll_seq, regexp.matchAll_char_same]
    simp only [List.flatMap_cons, List.flatMap_nil, List.append_nil]
    rw [regexp.matchAll_seq, regexp.matchAll_group, regexp.matchAll_seq,
      regexp.flatMap_matchAll_empty, regexp.matchAll_star_lazy, regexp.flatMap_map_eq]
    rw [htl]
    have htake : List.take ((n ++ '}' :: rest).length - ('}' :: rest).length) (n ++ '}' :: rest)
        = n := by
      have : (n ++ '}' :: rest).length - ('}' :: rest).length = n.length := by
        simp only [List.length_cons, List.length_append]
        omega
      rw [this]
      exact List.take_left' rfl
    show regexp.matchAll (.seq (.char '}') .empty)
      ⟨pos + 1 + n.length, '}' :: rest, [none].set (1 - 1)
        (some (List.take ((n ++ '}' :: rest).length - ('}' :: rest).length)
          (n ++ '}' :: rest)))⟩ ++ tl = _
    rw [htake, regexp.matchAll_seq, regexp.matchAll_char_same]
    simp [regexp.matchAll_empty]
  unfold regexp.matchAt
  simp only [hall]
  have htake2 : List.take (('{' :: (n ++ '}' :: rest)).length - rest.length)
      ('{' :: (n ++ '}' :: rest)) = '{' :: n ++ ['}'] := by
    have h1 : ('{' :: (n ++ '}' :: rest)) = ('{' :: n ++ ['}']) ++ rest := by simp
    have h2 : ('{' :: (n ++ '}' :: rest)).length - rest.length = ('{' :: n ++ ['}']).length := by
      simp only [List.length_cons, List.length_append, List.length_nil]
      omega
    rw [h2, h1]
    exact List.take_left' rfl
  rw [htake2]

theorem pieces_literal_run (t rest : List Char) (ht : ∀ c ∈ t, c ≠ '{') :
    ∀ (pos : Nat) (adj : Bool), ∃ adj',
      regexp.pieces placeholderRe pos 0 adj (t ++ rest)
        = t.map .text ++ regexp.pieces placeholderRe (pos + t.length) 0 adj' rest := by
  induction t with
  | nil => intro pos adj; exact ⟨adj, rfl⟩
  | cons c t ih =>
    intro pos adj
    obtain ⟨adj', h⟩ := ih (fun d hd => ht d (List.mem_cons_of_mem _ hd)) (pos + 1) false
    refine ⟨adj', ?_⟩
    rw [List.cons_append, regexp.pieces_text _ _ _ _ _
      (matchAt_placeholder_other pos c _ (ht c (List.mem_cons_self _ _))), h]
    simp [Nat.add_assoc, Nat.add_comm 1]

/-- The placeholder expression cuts a well-formed template into its slashes,
literal characters and placeholders. -/
theorem pieces_template (segs : List Segment) (hwf : ∀ s ∈ segs, s.WellFormed) :
    ∀ (pos : Nat) (adj : Bool),
      regexp.pieces placeholderRe pos 0 adj (segs.flatMap Segment.template)
        = templatePieces pos segs := by
  induction segs with
  | nil => intro pos adj; exact regexp.pieces_nil _ _ _ _ (matchAt_placeholder_nil pos)
  | cons s segs ih =>
    intro pos adj
    have hrest : ∀ s ∈ segs, s.WellFormed := fun q hq => hwf q (List.mem_cons_of_mem _ hq)
    have hslash : ('/' : Char) ≠ '{' := by decide
    cases s with
    | lit t =>
      have ht : ∀ c ∈ t, c ≠ '{' := by
        intro c hc h
        have := hwf (.lit t) (List.mem_cons_self _ _) c hc
        rw [h] at this
        exact this (by decide)
      have e1 : (Segment.lit t :: segs).flatMap Segment.template
          = '/' :: (t ++ segs.flatMap Segment.template) := by
        simp [List.flatMap_cons, Segment.template]
      obtain ⟨adj', h⟩ := pieces_literal_run t (segs.flatMap Segment.template) ht (pos + 1) false
      rw [e1, regexp.pieces_text _ _ _ _ _ (matchAt_placeholder_other pos '/' _ hslash), h,
        ih hrest]
      rfl
    | var n =>
      have hn : ∀ c ∈ n, c ≠ '}' ∧ c ≠ '\n' := hwf (.var n) (List.mem_cons_self _ _)
      have e1 : (Segment.var n :: segs).flatMap Segment.template
          = '/' :: '{' :: (n ++ '}' :: segs.flatMap Segment.template) := by
        simp [List.flatMap_cons, Segment.template]
      have hm := matchAt_placeholder (pos + 1) n (segs.flatMap Segment.template) hn
      have hskip := regexp.pieces_skip_all placeholderRe (n ++ ['}'])
        (segs.flatMap Segment.template) (pos + 1 + 1) true
      have e2 : (n ++ ['}']) ++ segs.flatMap Segment.template
          = n ++ '}' :: segs.flatMap Segment.template := by simp
      have e3 : ('{' :: n ++ ['}']).length - 1 = (n ++ ['}']).length := by simp
      rw [e2] at hskip
      rw [e1, regexp.pieces_text _ _ _ _ _ (matchAt_placeholder_other pos '/' _ hslash),
        regexp.pieces_matched _ _ _ _ _ _ hm (by simp)]
      simp only [e3]
      rw [hskip, ih hrest]
      have hidx : pos + 1 + 1 + (n ++ ['}']).length = pos + 1 + (n.length + 2) := by
        simp only [List.length_append, List.length_cons, List.length_nil]
        omega
      rw [hidx]
      rfl

theorem flatMap_text (g : regexp.Piece → List Char) (hg : ∀ c, g (.text c) = [c])
    (t : List Char) : (t.map regexp.Piece.text).flatMap g = t := by
  induction t with
  | nil => rfl
  | cons c t ih => simp [List.flatMap_cons, hg, ih]

theorem filterMap_text {β : Type} (g : regexp.Piece → Option β) (hg : ∀ c, g (.text c) = none)
    (t : List Char) : (t.map regexp.Piece.text).filterMap g = [] := by
  induction t with
  | nil => rfl
  | cons c t ih => simp [List.filterMap_cons, hg, ih]

theorem replaceAll_template (segs : List Segment) (hwf : ∀ s ∈ segs, s.WellFormed) :
    regexp.ReplaceAllString placeholderRe (templateOf segs) "([^\\/]+?)"
      = String.mk (segmentPattern segs) := by
  unfold regexp.ReplaceAllString templateOf
  rw [pieces_template segs hwf 0 false]
  congr 1
  generalize 0 = pos
  induction segs generalizing pos with
  | nil => rfl
  | cons s segs ih =>
    have hrest : ∀ s ∈ segs, s.WellFormed := fun q hq => hwf q (List.mem_cons_of_mem _ hq)
    cases s with
    | lit t =>
      simp only [templatePieces, segmentPattern, List.flatMap_cons, List.flatMap_append,
        List.cons_append, List.nil_append, ih hrest]
      congr 2
      exact flatMap_text _ (fun _ => rfl) t
    | var n =>
      simp only [templatePieces, segmentPattern, List.flatMap_cons, ih hrest]
      rfl

theorem findAll_template (segs : List Segment) (hwf : ∀ s ∈ segs, s.WellFormed) :
    (regexp.FindAllStringSubmatch placeholderRe (templateOf segs)).map
        (fun varMatch => varMatch.getD 1 "")
      = (placeholderNames segs).map String.mk := by
  unfold regexp.FindAllStringSubmatch templateOf
  rw [pieces_template segs hwf 0 false]
  generalize 0 = pos
  induction segs generalizing pos with
  | nil => rfl
  | cons s segs ih =>
    have hrest : ∀ s ∈ segs, s.WellFormed := fun q hq => hwf q (List.mem_cons_of_mem _ hq)
    cases s with
    | lit t =>
      simp only [templatePieces, placeholderNames, List.filterMap_cons, List.filterMap_append]
      rw [filterMap_text _ (fun _ => rfl) t, List.nil_append]
      exact ih hrest _
    | var n =>
      simp only [templatePieces, placeholderNames, List.filterMap_cons, List.map_cons, ih hrest]
      rfl

/-- What `addRoute` stores for a well-formed literal/placeholder template. -/
theorem addRoute_template (router : Router) (method : String) (segs : List Segment)
    (handlers : List RouteHandler) (hwf : ∀ s ∈ segs, s.WellFormed) :
    (addRoute router method (templateOf segs) handlers).routes
      = router.routes ++
        [{ Method := method, URI := normalizeURLSlashes (templateOf segs), Handlers := handlers,
           pattern := "^" ++ String.mk (segmentPattern segs) ++ "$",
           «variables» := (placeholderNames segs).map String.mk }] := by
  unfold addRoute
  simp only [replaceAll_template segs hwf, findAll_template segs hwf]

/-! ## Binding the captured values -/

theorem mapSet_new {β : Type} (params : List (String × β)) (k : String) (v : β)
    (h : k ∉ params.map Prod.fst) : mapSet params k v = params ++ [(k, v)] := by
  induction params with
  | nil => rfl
  | cons p ps ih =>
    obtain ⟨k', v'⟩ := p
    have hne : k' ≠ k := fun e => h (by simp [e])
    have hps : k ∉ ps.map Prod.fst := fun e => h (by simp [e])
    simp [mapSet, hne, ih hps]

/-- With pairwise distinct names none of which is bound yet, the loop of
`mapURLParams` appends the names paired with the values in order. -/
theorem mapURLParamsLoop_distinct (names : List String) :
    ∀ (pre vs : List String) (params : URLParams),
      names.length ≤ vs.length → names.Nodup → (∀ n ∈ names, n ∉ params.map Prod.fst) →
      mapURLParamsLoop (pre ++ vs) names pre.length params = .ok (params ++ names.zip vs) := by
  induction names with
  | nil => intro pre vs params _ _ _; simp [mapURLParamsLoop]
  | cons n names ih =>
    intro pre vs params hlen hnd hfresh
    cases vs with
    | nil => simp at hlen
    | cons v vs =>
      have hget : (pre ++ v :: vs).get? pre.length = some v := by
        rw [List.get?_eq_getElem?, List.getElem?_append_right (le_refl _)]
        simp
      have hn : n ∉ params.map Prod.fst := hfresh n (List.mem_cons_self _ _)
      have hnd' := List.nodup_cons.mp hnd
      rw [mapURLParamsLoop, hget]
      simp only
      rw [mapSet_new params n v hn]
      have h := ih (pre ++ [v]) vs (params ++ [(n, v)]) (by simpa using hlen) hnd'.2
        (by
          intro m hm hmem
          simp only [List.map_append, List.map_cons, List.map_nil, List.mem_append,
            List.mem_singleton] at hmem
          rcases hmem with h1 | h1
          · exact hfresh m (List.mem_cons_of_mem _ hm) h1
          · exact hnd'.1 (h1 ▸ hm))
      simp only [List.append_assoc, List.singleton_append, List.length_append,
        List.length_singleton] at h
      rw [h]
      simp

theorem mapURLParams_distinct (names vs : List String) (hlen : names.length ≤ vs.length)
    (hnd : names.Nodup) : mapURLParams names vs = .ok (names.zip vs) := by
  have h := mapURLParamsLoop_distinct names [] vs [] hlen hnd (by simp)
  simpa [mapURLParams] using h

theorem string_mk_injective : Function.Injective String.mk := by
  intro a b h
  exact congrArg String.data h

/-- `createContext` leaves a request path unchanged when it starts with a
slash and does not end with one. -/
theorem createContext_URI_normalized (response : ResponseWriter) (request : Request)
    (cs : List Char) (hhead : request.URLPath.data = '/' :: cs)
    (hlast : request.URLPath.data.getLast? ≠ some '/') :
    (createContext response request).URI = request.URLPath := by
  have hsuf : List.isSuffixOf "/".data request.URLPath.data = false := by
    have hrev : request.URLPath.data.reverse.head? ≠ some '/' := by
      rwa [List.head?_reverse]
    show List.isPrefixOf ['/'] request.URLPath.data.reverse = false
    cases hr : request.URLPath.data.reverse with
    | nil => rfl
    | cons d ds =>
      rw [hr] at hrev
      have hd : d ≠ '/' := fun e => hrev (by simp [e])
      simp [List.isPrefixOf, Ne.symm hd]
  have hpre : List.isPrefixOf "/".data request.URLPath.data = true := by
    rw [hhead]
    show List.isPrefixOf ['/'] ('/' :: cs) = true
    simp [List.isPrefixOf]
  unfold createContext
  simp only [TrimSuffix, hsuf, TrimPrefix, hpre, if_true, Bool.false_eq_true, if_false]
  apply String.ext
  simp [String.data_append, hhead]

/-- A well-formed literal/placeholder template with distinct names, as the
only route of a table, matches the path that substitutes the values and binds
each name to its value. -/
theorem getHandlerForRoute_template (method : String) (segs : List Segment)
    (vals : List (List Char)) (handlers : List RouteHandler) (ctx : Context)
    (hwf : ∀ s ∈ segs, s.WellFormed) (hnodup : (placeholderNames segs).Nodup)
    (hlen : vals.length = (placeholderNames segs).length) (hvals : ∀ v ∈ vals, ValueOK v)
    (hmethod : ctx.Method = method) (huri : ctx.URI = String.mk (substitute segs vals)) :
    getHandlerForRoute ctx (addRoute Initialize method (templateOf segs) handlers).routes
      = .ok (handlers, none,
          { ctx with
            Params := ((placeholderNames segs).map String.mk).zip (vals.map String.mk) }) := by
  rw [addRoute_template Initialize method segs handlers hwf]
  have hmu : ∀ r : Route, r.pattern = "^" ++ String.mk (segmentPattern segs) ++ "$" →
      matchURL r ctx.URI = .ok (String.mk (substitute segs vals) :: vals.map String.mk) := by
    intro r hr
    unfold matchURL
    rw [hr, compile_segmentPattern segs hwf]
    simp only [huri, findStringSubmatch_segments segs vals hlen hvals, Option.getD_some]
  have hparams : mapURLParams ((placeholderNames segs).map String.mk) (vals.map String.mk)
      = .ok (((placeholderNames segs).map String.mk).zip (vals.map String.mk)) :=
    mapURLParams_distinct _ _ (by simp [hlen])
      ((List.nodup_map_iff string_mk_injective).mpr hnodup)
  subst hmethod
  have hr := hmu
    { Method := ctx.Method, URI := normalizeURLSlashes (templateOf segs), Handlers := handlers,
      pattern := "^" ++ String.mk (segmentPattern segs) ++ "$",
      «variables» := (placeholderNames segs).map String.mk } rfl
  simp only [Initialize, List.nil_append, getHandlerForRoute, getHandlerForRouteLoop,
    getMatchForMethod, hr, List.length_cons, gt_iff_lt, Nat.zero_lt_succ, if_true,
    and_self, List.drop_succ_cons, List.drop_zero, hparams]

/-- C5: a template of slash-separated segments, each literal text free of
regular-expression metacharacters or a placeholder whose name has no closing
brace or line break, the names pairwise distinct, is registered with
`addRoute` as the only route.  A request with the route's method whose path
puts a non-empty slash-free value in place of each placeholder is matched,
the route's handlers are returned and `Params` is the list of the names
paired with the values in template order, one entry per placeholder.  This
holds for the context `createContext` builds from a request with that path
when the path starts with a slash and does not end with one. -/
theorem C5_template_binds_each_placeholder (method : String) (segs : List Segment)
    (vals : List (List Char)) (handlers : List RouteHandler)
    (hwf : ∀ s ∈ segs, s.WellFormed) (hnodup : (placeholderNames segs).Nodup)
    (hlen : vals.length = (placeholderNames segs).length) (hvals : ∀ v ∈ vals, ValueOK v) :
    (∀ ctx : Context, ctx.Method = method → ctx.URI = String.mk (substitute segs vals) →
      getHandlerForRoute ctx (addRoute Initialize method (templateOf segs) handlers).routes
        = .ok (handlers, none,
            { ctx with
              Params := ((placeholderNames segs).map String.mk).zip (vals.map String.mk) })) ∧
    (((placeholderNames segs).map String.mk).zip (vals.map String.mk)).length
      = (placeholderNames segs).length ∧
    (∀ (response : ResponseWriter) (request : Request) (cs : List Char),
      request.Method = method → request.URLPath = String.mk (substitute segs vals) →
      substitute segs vals = '/' :: cs → (substitute segs vals).getLast? ≠ some '/' →
      getHandlerForRoute (createContext response request)
          (addRoute Initialize method (templateOf segs) handlers).routes
        = .ok (handlers, none,
            { createContext response request with
              Params := ((placeholderNames segs).map String.mk).zip (vals.map String.mk) })) := by
  refine ⟨fun ctx hm hu =>
      getHandlerForRoute_template method segs vals handlers ctx hwf hnodup hlen hvals hm hu,
    by simp [hlen], ?_⟩
  intro response request cs hm hpath hhead hlast
  apply getHandlerForRoute_template method segs vals handlers _ hwf hnodup hlen hvals hm
  rw [createContext_URI_normalized response request cs (by rw [hpath]; exact hhead)
    (by rw [hpath]; exact hlast), hpath]

/-- C5, witness of the spec: `GET /users/{userID}/posts/{postID}` with the
request `GET /users/7/posts/9` binds `userID` to 7 and `postID` to 9. -/
theorem C5_witness :
    templateOf userPostSegments = "/users/{userID}/posts/{postID}" ∧
    getHandlerForRoute (createContext ⟨[], []⟩ (sampleRequest "GET" "/users/7/posts/9"))
        (addRoute Initialize "GET" (templateOf userPostSegments) [handlerGet]).routes
      = .ok ([handlerGet], none,
          { createContext ⟨[], []⟩ (sampleRequest "GET" "/users/7/posts/9") with
            Params := [("userID", "7"), ("postID", "9")] }) :=
  ⟨by decide,
    (C5_template_binds_each_placeholder "GET" userPostSegments ["7".data, "9".data] [handlerGet]
      (by decide) (by decide) (by decide) (by decide)).2.2 ⟨[], []⟩
      (sampleRequest "GET" "/users/7/posts/9") "users/7/posts/9".data rfl (by decide) (by decide)
      (by decide)⟩

/-! ## Trailing slashes -/

/-- C6, failing input: `addRoute` with the template `/users/` stores the
normalized URI `/users` but builds the pattern `^/users/$` from the template
as given.  The request paths `/users` and `/users/` are both normalized to
`/users` by `createContext`, which that pattern does not match: both get
Not-Found.  The other direction holds: the template `/users` is matched by
the request path `/users/`. -/
theorem C6_template_trailing_slash_kept_in_pattern :
    (Initialize.Get "/users/" [handlerGet]).routes.map (fun r => (r.URI, r.pattern))
      = [("/users", "^/users/$")] ∧
    (sampleContext "GET" "/users").URI = "/users" ∧
    (sampleContext "GET" "/users/").URI = "/users" ∧
    getHandlerForRoute (sampleContext "GET" "/users") (Initialize.Get "/users/" [handlerGet]).routes
      = .ok ([], some ⟨"Not Found", 404, none⟩, sampleContext "GET" "/users") ∧
    getHandlerForRoute (sampleContext "GET" "/users/") (Initialize.Get "/users/" [handlerGet]).routes
      = .ok ([], some ⟨"Not Found", 404, none⟩, sampleContext "GET" "/users/") ∧
    getHandlerForRoute (sampleContext "GET" "/users/") (Initialize.Get "/users" [handlerGet]).routes
      = .ok ([handlerGet], none, sampleContext "GET" "/users/") :=
  ⟨by decide, by decide, by decide, rfl, rfl, rfl⟩

/-! ## Content type, serialization and request bodies -/

/-- Only the JSON serializer can fail, so a failed serialization means the
content type is JSON. -/
theorem serialize_fails_json (enc : Encoders) (builder : ResponseBuilder) (e : String)
    (h : (builder.Serialize enc).2 = some e) :
    builder.GetContentType = contentTypeOf "JSON" := by
  by_contra hne
  simp [ResponseBuilder.Serialize, hne, textSerialize] at h

/-- A well-formed `Send` is one `writeResponse` whose content type is the one
`GetContentType` reports, and whose status is one `WriteHeader` accepts when
the call's is. -/
theorem send_response_contentType (enc : Encoders) (ctx : Context) (data : GoValue)
    (rest : List GoValue) (hwf : (Call.send (data :: rest)).WellFormed) :
    ∃ res : response, ctx.Send enc (data :: rest) = ctx.writeResponse res ∧
      res.ContentType = (getResponseBuilder ctx data).GetContentType ∧
      ((Call.send (data :: rest)).ValidStatus → 100 ≤ res.Status ∧ res.Status ≤ 999) := by
  have hsend := send_eq_writeResponse enc ctx data rest hwf
  rcases hser : (getResponseBuilder ctx data).Serialize enc with ⟨b, _ | e⟩
  · rw [hser] at hsend
    exact ⟨{ Status := sendStatus rest,
             ContentType := (getResponseBuilder ctx data).GetContentType, Data := b },
      hsend, rfl, fun hv => hv⟩
  · have hjson := serialize_fails_json enc (getResponseBuilder ctx data) e (by rw [hser])
    rw [hser] at hsend
    exact ⟨{ Status := 500, ContentType := contentTypeOf "JSON",
             Data := (InternalError ["Failed to serialize output data"]).GetResponseData enc },
      hsend, hjson.symm, fun _ => ⟨(by decide : (100 : Int) ≤ 500), (by decide : (500 : Int) ≤ 999)⟩⟩

/-- A well-formed `Send` with a status `WriteHeader` accepts, on a context
whose response is not sent, adds one transmission, whose `Content-Type` is
the one `GetContentType` reports. -/
theorem send_contentType (enc : Encoders) (ctx : Context) (data : GoValue) (rest : List GoValue)
    (hwf : (Call.send (data :: rest)).WellFormed)
    (hvalid : (Call.send (data :: rest)).ValidStatus) (hfresh : ctx.responseSent = false) :
    ∃ ctx' t, ctx.Send enc (data :: rest) = .ok ctx' ∧ ctx'.responseSent = true ∧
      ctx'.Res.wire = ctx.Res.wire ++ [t] ∧
      t.headers = ctx.Res.header.Add "Content-Type" (getResponseBuilder ctx data).GetContentType ∧
      ctx'.Res.header = t.headers := by
  obtain ⟨res, hsend, hct, hstatus⟩ := send_response_contentType enc ctx data rest hwf
  rw [writeResponse_fresh ctx res hfresh (hstatus hvalid).1 (hstatus hvalid).2] at hsend
  exact ⟨ctx.written res,
    ⟨ctx.Res.header.Add "Content-Type" res.ContentType, res.Status, res.Data⟩,
    hsend, rfl, rfl, by rw [hct], rfl⟩

/-- C12: when the response header already has a non-empty `Content-Type`,
`GetContentType` returns it whatever the payload; otherwise it returns
`application/json` for a payload of map kind and `text/plain` for one of
string kind; and a `Send` whose arguments do not make it panic (the status,
when given, is an `int` that `WriteHeader` accepts), on a context whose
response is not sent, writes its one transmission with that content type
added to the header. -/
theorem C12_content_type_header_first (ctx : Context) (data : GoValue) :
    (ctx.Res.header.Get "Content-Type" ≠ "" →
      (getResponseBuilder ctx data).GetContentType = ctx.Res.header.Get "Content-Type") ∧
    (ctx.Res.header.Get "Content-Type" = "" → data.kind = .Map →
      (getResponseBuilder ctx data).GetContentType = "application/json") ∧
    (ctx.Res.header.Get "Content-Type" = "" → data.kind = .String →
      (getResponseBuilder ctx data).GetContentType = "text/plain") ∧
    (∀ (enc : Encoders) (rest : List GoValue), (Call.send (data :: rest)).WellFormed →
      (Call.send (data :: rest)).ValidStatus → ctx.responseSent = false →
      ∃ ctx' t, ctx.Send enc (data :: rest) = .ok ctx' ∧ ctx'.responseSent = true ∧
        ctx'.Res.wire = ctx.Res.wire ++ [t] ∧
        t.headers
          = ctx.Res.header.Add "Content-Type" (getResponseBuilder ctx data).GetContentType ∧
        ctx'.Res.header = t.headers) := by
  refine ⟨?_, ?_, ?_, fun enc rest hwf hvalid hfresh =>
    send_contentType enc ctx data rest hwf hvalid hfresh⟩
  · intro h
    simp [ResponseBuilder.GetContentType, getResponseBuilder, h]
  · intro h hk
    simp [ResponseBuilder.GetContentType, getResponseBuilder, h, hk, contentTypeOf, ContentType,
      mapGet]
  · intro h hk
    simp [ResponseBuilder.GetContentType, getResponseBuilder, h, hk, contentTypeOf, ContentType,
      mapGet]

/-- C12, witness: a map payload on a fresh context is typed
`application/json`, and `Send` writes it with that header. -/
theorem C12_witness :
    (getResponseBuilder (sampleContext "GET" "/") (.map [])).GetContentType = "application/json" ∧
    ∃ ctx' t, (sampleContext "GET" "/").Send sampleEncoders [.map []] = .ok ctx' ∧
      ctx'.responseSent = true ∧
      ctx'.Res.wire = (sampleContext "GET" "/").Res.wire ++ [t] ∧
      t.headers = (sampleContext "GET" "/").Res.header.Add "Content-Type"
        (getResponseBuilder (sampleContext "GET" "/") (.map [])).GetContentType ∧
      ctx'.Res.header = t.headers :=
  ⟨(C12_content_type_header_first (sampleContext "GET" "/") (.map [])).2.1 rfl rfl,
    (C12_content_type_header_first (sampleContext "GET" "/") (.map [])).2.2.2 sampleEncoders []
      trivial ⟨by decide, by decide⟩ rfl⟩

/-- C13, counterexample: with no `Content-Type` set, a slice and a pointer to
a struct are typed `text/plain` and serialized by `textSerialize`. -/
theorem C13_counterexample :
    (sampleContext "GET" "/").Res.header.Get "Content-Type" = "" ∧
    (getResponseBuilder (sampleContext "GET" "/") (.slice [.int 1, .int 2])).GetContentType
      = "text/plain" ∧
    (getResponseBuilder (sampleContext "GET" "/") (.ptr (.struct [("ID", .int 7)]))).GetContentType
      = "text/plain" ∧
    (∀ enc : Encoders,
      (getResponseBuilder (sampleContext "GET" "/") (.slice [.int 1, .int 2])).Serialize enc
        = textSerialize enc (.slice [.int 1, .int 2])) ∧
    (∀ enc : Encoders,
      (getResponseBuilder (sampleContext "GET" "/") (.ptr (.struct [("ID", .int 7)]))).Serialize enc
        = textSerialize enc (.ptr (.struct [("ID", .int 7)]))) := by
  refine ⟨by decide, by decide, by decide, fun enc => rfl, fun enc => rfl⟩

/-- C13, amended: with no `Content-Type` set, a payload is typed
`application/json` and serialized by `jsonSerialize` exactly when its kind is
map, struct or array; every other payload, slices and pointers included, is
typed `text/plain` and serialized by `textSerialize`. -/
theorem C13_json_only_for_map_struct_array (ctx : Context) (data : GoValue)
    (h : ctx.Res.header.Get "Content-Type" = "") :
    ((data.kind = .Map ∨ data.kind = .Struct ∨ data.kind = .Array) →
      (getResponseBuilder ctx data).GetContentType = "application/json" ∧
      ∀ enc : Encoders, (getResponseBuilder ctx data).Serialize enc = jsonSerialize enc data) ∧
    (¬ (data.kind = .Map ∨ data.kind = .Struct ∨ data.kind = .Array) →
      (getResponseBuilder ctx data).GetContentType = "text/plain" ∧
      ∀ enc : Encoders, (getResponseBuilder ctx data).Serialize enc = textSerialize enc data) := by
  have hjson : contentTypeOf "JSON" = "application/json" := by decide
  have htext : contentTypeOf "text" = "text/plain" := by decide
  cases hk : data.kind <;>
    simp [ResponseBuilder.GetContentType, ResponseBuilder.Serialize, getResponseBuilder, h, hk,
      hjson, htext]

/-- C13, witness of the amended statement on a fresh context and a struct. -/
theorem C13_witness :
    (getResponseBuilder (sampleContext "GET" "/") (.struct [("ID", .int 7)])).GetContentType
      = "application/json" ∧
    ∀ enc : Encoders,
      (getResponseBuilder (sampleContext "GET" "/") (.struct [("ID", .int 7)])).Serialize enc
        = jsonSerialize enc (.struct [("ID", .int 7)]) :=
  (C13_json_only_for_map_struct_array (sampleContext "GET" "/") (.struct [("ID", .int 7)])
    rfl).1 (Or.inr (Or.inl rfl))

/-- `Context.JSON` reports an error only for a content type other than JSON
or a body that cannot be read; the result of `json.Unmarshal` is dropped. -/
theorem JSON_error_iff (enc : Encoders) (ctx : Context) (parsed : GoValue) :
    ((ctx.JSON enc parsed).2 ≠ none ↔
      (ctx.Req.Header.Get "Content-Type" ≠ "application/json" ∨
        ∃ err, ctx.Req.Body = .error err)) := by
  have hjson : contentTypeOf "JSON" = "application/json" := by decide
  unfold Context.JSON
  rw [hjson]
  by_cases hct : ctx.Req.Header.Get "Content-Type" = "application/json"
  · cases hb : ctx.Req.Body with
    | error err => simp [hct]
    | ok body => simp [hct]
  · simp [hct]

/-- C14, failing input: the request declares `application/json` and its body
is the text `{not json`, which the decoder rejects; `Context.JSON` returns a
nil error and leaves the target as it was. -/
theorem C14_unmarshal_error_dropped :
    (createContext ⟨[], []⟩ (jsonRequest "\x7bnot json")).Req.Header.Get "Content-Type"
      = "application/json" ∧
    strictEncoders.jsonUnmarshal "\x7bnot json" (.map [])
      = (.map [], some "invalid character") ∧
    (createContext ⟨[], []⟩ (jsonRequest "\x7bnot json")).JSON strictEncoders (.map [])
      = (.map [], none) :=
  ⟨by decide, rfl, rfl⟩

/-- C15: on a context whose response is not sent, a `Send` that does not
panic and whose payload fails to serialize writes exactly one transmission:
status 500, `Content-Type: application/json` added to the header, and the
error body for the message "Failed to serialize output data"; neither the
caller's status nor any payload text is written, and `responseSent` becomes
true. -/
theorem C15_serialization_failure_sends_500 (enc : Encoders) (ctx : Context) (data : GoValue)
    (rest : List GoValue) (e : String) (hwf : (Call.send (data :: rest)).WellFormed)
    (hfresh : ctx.responseSent = false)
    (hfail : ((getResponseBuilder ctx data).Serialize enc).2 = some e) :
    ctx.Send enc (data :: rest) = .ok
      { ctx with
        Res :=
          { header := ctx.Res.header.Add "Content-Type" "application/json",
            wire := ctx.Res.wire ++
              [⟨ctx.Res.header.Add "Content-Type" "application/json", 500,
                (jsonSerialize enc (.map [("statusCode", .int 500),
                  ("error", .str "Failed to serialize output data")])).1⟩] },
        responseSent := true } := by
  have hjson : contentTypeOf "JSON" = "application/json" := by decide
  have hsend := send_eq_writeResponse enc ctx data rest hwf
  rcases hser : (getResponseBuilder ctx data).Serialize enc with ⟨b, _ | e'⟩
  · rw [hser] at hfail
    simp at hfail
  · rw [hser] at hsend
    rw [hsend]
    simp [Context.writeResponse, checkWriteHeaderCode, hfresh, hjson, HTTPError.GetResponseData,
      InternalError,
      createError, errorMessage]

/-- C15, witness: a map with an entry that does not marshal, sent with the
status 201 on a fresh context. -/
theorem C15_witness :
    (sampleContext "GET" "/").Send strictEncoders [.map [("c", .chan)], .int 201] = .ok
      { sampleContext "GET" "/" with
        Res :=
          { header := (sampleContext "GET" "/").Res.header.Add "Content-Type" "application/json",
            wire := (sampleContext "GET" "/").Res.wire ++
              [⟨(sampleContext "GET" "/").Res.header.Add "Content-Type" "application/json", 500,
                (jsonSerialize strictEncoders (.map [("statusCode", .int 500),
                  ("error", .str "Failed to serialize output data")])).1⟩] },
        responseSent := true } :=
  C15_serialization_failure_sends_500 strictEncoders (sampleContext "GET" "/")
    (.map [("c", .chan)]) [.int 201] "json: unsupported type" ⟨201, rfl⟩ rfl rfl

/-! ## Binding with repeated names -/

theorem mapGet_mapSet {β : Type} (m : List (String × β)) (k q : String) (v : β) :
    mapGet (mapSet m k v) q = if q = k then some v else mapGet m q := by
  induction m with
  | nil =>
    by_cases h : q = k
    · simp [mapSet, mapGet, h]
    · have h' : ¬ k = q := fun e => h e.symm
      simp [mapSet, mapGet, h, h']
  | cons p ps ih =>
    obtain ⟨k', v'⟩ := p
    by_cases hk : k' = k
    · subst hk
      by_cases h : q = k'
      · simp [mapSet, mapGet, h]
      · have h' : ¬ k' = q := fun e => h e.symm
        simp [mapSet, mapGet, h, h']
    · by_cases h : k' = q
      · subst h
        simp [mapSet, mapGet, hk]
      · simp [mapSet, mapGet, hk, h, ih]

theorem mem_keys_mapSet {β : Type} (m : List (String × β)) (k q : String) (v : β) :
    q ∈ (mapSet m k v).map Prod.fst ↔ q = k ∨ q ∈ m.map Prod.fst := by
  induction m with
  | nil => simp [mapSet]
  | cons p ps ih =>
    obtain ⟨k', v'⟩ := p
    by_cases hk : k' = k
    · subst hk
      simp [mapSet]
    · simp only [mapSet, hk, if_false, List.map_cons, List.mem_cons, ih]
      tauto

theorem nodup_keys_mapSet {β : Type} (m : List (String × β)) (k : String) (v : β)
    (h : (m.map Prod.fst).Nodup) : ((mapSet m k v).map Prod.fst).Nodup := by
  induction m with
  | nil => simp [mapSet]
  | cons p ps ih =>
    obtain ⟨k', v'⟩ := p
    have h' := List.nodup_cons.mp h
    by_cases hk : k' = k
    · subst hk
      simpa [mapSet] using h
    · simp only [mapSet, hk, if_false, List.map_cons, List.nodup_cons]
      refine ⟨?_, ih h'.2⟩
      intro hmem
      rcases (mem_keys_mapSet ps k k' v).mp hmem with e | e
      · exact hk e
      · exact h'.1 e

/-- The loop of `mapURLParams`: every name becomes a key, earlier bindings of
other keys are kept, and a name is bound to the value at its last position. -/
theorem mapURLParamsLoop_spec (names : List String) :
    ∀ (pre vs : List String) (params : URLParams),
      names.length ≤ vs.length → (params.map Prod.fst).Nodup →
      ∃ m, mapURLParamsLoop (pre ++ vs) names pre.length params = .ok m ∧
        (m.map Prod.fst).Nodup ∧
        (∀ k, k ∈ m.map Prod.fst ↔ k ∈ params.map Prod.fst ∨ k ∈ names) ∧
        (∀ k, k ∉ names → mapGet m k = mapGet params k) ∧
        (∀ j (hj : j < names.length),
          (∀ j' (hj' : j' < names.length), j < j' → names[j'] ≠ names[j]) →
          mapGet m names[j] = vs.get? j) := by
  induction names with
  | nil =>
    intro pre vs params _ hnd
    exact ⟨params, rfl, hnd, by simp, fun _ _ => rfl, fun j hj => absurd hj (by simp)⟩
  | cons n ns ih =>
    intro pre vs params hlen hnd
    cases vs with
    | nil => simp at hlen
    | cons v vs =>
      have hget : (pre ++ v :: vs).get? pre.length = some v := by
        rw [List.get?_eq_getElem?, List.getElem?_append_right (le_refl _)]
        simp
      obtain ⟨m, hm, hmnd, hkeys, hkeep, hlast⟩ :=
        ih (pre ++ [v]) vs (mapSet params n v) (by simpa using hlen)
          (nodup_keys_mapSet params n v hnd)
      simp only [List.append_assoc, List.singleton_append, List.length_append,
        List.length_singleton] at hm
      refine ⟨m, ?_, hmnd, ?_, ?_, ?_⟩
      · rw [mapURLParamsLoop, hget]
        exact hm
      · intro k
        rw [hkeys, mem_keys_mapSet, List.mem_cons]
        tauto
      · intro k hk
        have hk1 : k ≠ n := fun e => hk (by simp [e])
        have hk2 : k ∉ ns := fun e => hk (List.mem_cons_of_mem _ e)
        rw [hkeep k hk2, mapGet_mapSet]
        simp [hk1]
      · intro j hj hlater
        cases j with
        | zero =>
          have hn : n ∉ ns := by
            intro hmem
            obtain ⟨i, hi, hieq⟩ := List.getElem_of_mem hmem
            have := hlater (i + 1) (by simpa using hi) (Nat.succ_pos i)
            exact this (by simpa using hieq)
          show mapGet m n = _
          rw [hkeep n hn, mapGet_mapSet]
          simp
        | succ i =>
          have hi : i < ns.length := by simpa using hj
          have := hlast i hi (by
            intro j' hj' hlt
            have := hlater (j' + 1) (by simpa using hj') (by omega)
            simpa using this)
          simpa using this

/-- C16: for names and at least as many values, `mapURLParams` returns a map
with unique keys whose keys are exactly the names, with as many entries as
there are distinct names, and in which a name is bound to the value at the
last index where the name occurs. -/
theorem C16_mapURLParams_last_occurrence_wins (names values : List String)
    (hlen : names.length ≤ values.length) :
    ∃ params, mapURLParams names values = .ok params ∧
      (params.map Prod.fst).Nodup ∧
      (∀ k, k ∈ params.map Prod.fst ↔ k ∈ names) ∧
      params.length = names.dedup.length ∧
      (∀ j (hj : j < names.length),
        (∀ j' (hj' : j' < names.length), j < j' → names[j'] ≠ names[j]) →
        mapGet params names[j] = values.get? j) := by
  obtain ⟨m, hm, hnd, hkeys, _, hlast⟩ :=
    mapURLParamsLoop_spec names [] values [] hlen (by simp)
  refine ⟨m, by simpa [mapURLParams] using hm, hnd, by simpa using hkeys, ?_, hlast⟩
  have hset : (m.map Prod.fst).toFinset = names.toFinset := by
    ext k
    simp only [List.mem_toFinset]
    simpa using hkeys k
  have h1 : (m.map Prod.fst).toFinset.card = (m.map Prod.fst).length :=
    List.toFinset_card_of_nodup hnd
  have h2 : names.toFinset.card = names.dedup.length := List.card_toFinset names
  rw [← h2, ← hset, h1, List.length_map]

/-- C16, witness: the names `id`, `id`, `x` with the values 1, 2, 3. -/
theorem C16_witness :
    ∃ params, mapURLParams ["id", "id", "x"] ["1", "2", "3"] = .ok params ∧
      (params.map Prod.fst).Nodup ∧
      (∀ k, k ∈ params.map Prod.fst ↔ k ∈ ["id", "id", "x"]) ∧
      params.length = ["id", "id", "x"].dedup.length ∧
      (∀ j (hj : j < ["id", "id", "x"].length),
        (∀ j' (hj' : j' < ["id", "id", "x"].length), j < j' →
          ["id", "id", "x"][j'] ≠ ["id", "id", "x"][j]) →
        mapGet params ["id", "id", "x"][j] = ["1", "2", "3"].get? j) :=
  C16_mapURLParams_last_occurrence_wins ["id", "id", "x"] ["1", "2", "3"] (by decide)

/-! ## Slash normalization -/

/-- `strings.TrimSuffix(s, "/")` removes one final slash, if there is one. -/
theorem TrimSuffix_slash_cases (s : String) :
    (∃ l0, s.data = l0 ++ ['/'] ∧ (TrimSuffix s "/").data = l0) ∨
    (s.data.getLast? ≠ some '/' ∧ TrimSuffix s "/" = s) := by
  have hslash : "/".data = ['/'] := rfl
  by_cases h : s.data.getLast? = some '/'
  · left
    obtain ⟨l0, hl0⟩ := List.getLast?_eq_some_iff.mp h
    refine ⟨l0, hl0, ?_⟩
    have hsuf : List.isSuffixOf ['/'] s.data = true := by
      rw [List.isSuffixOf_iff_suffix, hl0]
      exact ⟨l0, rfl⟩
    simp only [TrimSuffix, hslash, hsuf, if_true]
    rw [hl0]
    simp
  · right
    refine ⟨h, ?_⟩
    have hsuf : ¬ List.isSuffixOf ['/'] s.data = true := by
      rw [List.isSuffixOf_iff_suffix]
      rintro ⟨t, ht⟩
      exact h (List.getLast?_eq_some_iff.mpr ⟨t, ht.symm⟩)
    simp [TrimSuffix, hslash, hsuf]

/-- `strings.TrimPrefix(s, "/")` removes one leading slash, if there is one. -/
theorem TrimPrefix_slash_cases (s : String) :
    (∃ r, s.data = '/' :: r ∧ (TrimPrefix s "/").data = r) ∨
    (s.data.head? ≠ some '/' ∧ TrimPrefix s "/" = s) := by
  have hslash : "/".data = ['/'] := rfl
  by_cases h : s.data.head? = some '/'
  · left
    obtain ⟨r, hr⟩ := List.head?_eq_some_iff.mp h
    refine ⟨r, hr, ?_⟩
    have hpre : List.isPrefixOf ['/'] s.data = true := by
      rw [List.isPrefixOf_iff_prefix, hr]
      exact ⟨r, rfl⟩
    simp only [TrimPrefix, hslash, hpre, if_true]
    rw [hr]
    simp
  · right
    refine ⟨h, ?_⟩
    have hpre : ¬ List.isPrefixOf ['/'] s.data = true := by
      rw [List.isPrefixOf_iff_prefix]
      rintro ⟨t, ht⟩
      exact h (List.head?_eq_some_iff.mpr ⟨t, ht.symm⟩)
    simp [TrimPrefix, hslash, hpre]

theorem normalizeURLSlashes_data (u : String) :
    (normalizeURLSlashes u).data = '/' :: (TrimPrefix (TrimSuffix u "/") "/").data := by
  simp [normalizeURLSlashes, String.data_append]

/-- `createContext` normalizes the request path as `normalizeURLSlashes` does. -/
theorem createContext_URI (response : ResponseWriter) (request : Request) :
    (createContext response request).URI = normalizeURLSlashes request.URLPath := rfl

/-- C18, counterexample: three slashes are normalized to two, a path with two
leading slashes keeps them, and of two trailing slashes one stays; the
normalization in `createContext` gives the same results. -/
theorem C18_counterexample :
    normalizeURLSlashes "///" = "//" ∧
    normalizeURLSlashes "//users" = "//users" ∧
    normalizeURLSlashes "/users//" = "/users/" ∧
    (sampleContext "GET" "///").URI = "//" ∧
    (sampleContext "GET" "//users").URI = "//users" ∧
    (sampleContext "GET" "/users//").URI = "/users/" := by
  decide

/-- C18, amended: the result of `normalizeURLSlashes`, which is also the
`URI` of the context `createContext` builds, always begins with a slash;
one trailing and one leading slash at most are removed, so when the input
neither starts nor ends with two slashes the second character is not a slash
and there is no trailing slash unless the result is the single slash. -/
theorem C18_single_slash_trimmed_each_side (u : String) :
    (normalizeURLSlashes u).data.head? = some '/' ∧
    (∀ (response : ResponseWriter) (request : Request), request.URLPath = u →
      (createContext response request).URI = normalizeURLSlashes u) ∧
    (¬ ['/', '/'] <+: u.data → ¬ ['/', '/'] <:+ u.data →
      ((normalizeURLSlashes u).data.drop 1).head? ≠ some '/' ∧
      (normalizeURLSlashes u = "/" ∨ (normalizeURLSlashes u).data.getLast? ≠ some '/')) := by
  refine ⟨by rw [normalizeURLSlashes_data]; rfl, ?_, ?_⟩
  · intro response request h
    rw [createContext_URI, h]
  intro hpre hsuf
  rw [normalizeURLSlashes_data]
  -- the text after removing one trailing slash
  have h1 : (TrimSuffix u "/").data.getLast? ≠ some '/' ∧ ¬ ['/', '/'] <+: (TrimSuffix u "/").data := by
    rcases TrimSuffix_slash_cases u with ⟨l0, hl0, ht⟩ | ⟨hlast, ht⟩
    · rw [ht]
      constructor
      · intro hl
        obtain ⟨l1, hl1⟩ := List.getLast?_eq_some_iff.mp hl
        exact hsuf ⟨l1, by rw [hl0, hl1]; simp⟩
      · rintro ⟨t, ht2⟩
        exact hpre ⟨t ++ ['/'], by rw [hl0, ← ht2]; simp⟩
    · rw [ht]
      exact ⟨hlast, hpre⟩
  obtain ⟨hlast1, hpre1⟩ := h1
  rcases TrimPrefix_slash_cases (TrimSuffix u "/") with ⟨r, hr, ht⟩ | ⟨hhead, ht⟩
  · rw [ht]
    constructor
    · intro hh
      have hh' : r.head? = some '/' := hh
      obtain ⟨r2, hr2⟩ := List.head?_eq_some_iff.mp hh'
      exact hpre1 ⟨r2, by rw [hr, hr2]; rfl⟩
    · cases r with
      | nil =>
        left
        apply String.ext
        rw [normalizeURLSlashes_data, ht]
      | cons c cs =>
        right
        rw [hr] at hlast1
        simpa [List.getLast?_cons_cons] using hlast1
  · rw [ht]
    constructor
    · simpa using hhead
    · cases hd : (TrimSuffix u "/").data with
      | nil =>
        left
        apply String.ext
        rw [normalizeURLSlashes_data, ht, hd]
      | cons c cs =>
        right
        rw [hd] at hlast1
        simpa [List.getLast?_cons_cons] using hlast1

/-- C18, witness of the amended statement on `/users/`. -/
theorem C18_witness :
    ((normalizeURLSlashes "/users/").data.drop 1).head? ≠ some '/' ∧
    (normalizeURLSlashes "/users/" = "/" ∨
      (normalizeURLSlashes "/users/").data.getLast? ≠ some '/') :=
  (C18_single_slash_trimmed_each_side "/users/").2.2 (by decide) (by decide)

/-! ## Overlapping patterns -/

/-- C19, failing input: on the table `GET /files/{name}`, `POST /files/readme`
the request `POST /files/readme` first hits the GET route, which has one
variable, while the submatches come from the POST route, which captures
nothing: `mapURLParams` indexes an empty list and `getHandlerForRoute`
panics, and so does `ServeHTTP`. -/
theorem C19_binding_panics_on_overlap (enc : Encoders) :
    filesTable.routes.map (fun r => (r.Method, r.pattern, r.«variables»))
      = [("GET", "^/files/([^\\/]+?)$", ["name"]), ("POST", "^/files/readme$", [])] ∧
    matchURL (filesTable.routes.getD 1 getUsersRoute) "/files/readme" = .ok ["/files/readme"] ∧
    getHandlerForRoute (sampleContext "POST" "/files/readme") filesTable.routes
      = .error .indexOutOfRange ∧
    ServeHTTP enc filesTable ⟨[], []⟩ (sampleRequest "POST" "/files/readme")
      = .error .indexOutOfRange :=
  ⟨by decide, rfl, rfl, rfl⟩

/-! ## Templates without placeholders -/

namespace regexp

/-- A sequence of literal characters followed by the end anchor matches
exactly the input that is those characters. -/
theorem matchAll_literal_eol (t : List Char) :
    ∀ (pos : Nat) (inp : List Char) (caps : List (Option (List Char))),
      matchAll (mkSeq (t.map .char ++ [.eol])) ⟨pos, inp, caps⟩
        = if inp = t then [⟨pos + t.length, [], caps⟩] else [] := by
  induction t with
  | nil =>
    intro pos inp caps
    cases inp <;> simp [mkSeq, matchAll]
  | cons c cs ih =>
    intro pos inp caps
    show matchAll (.seq (.char c) (mkSeq (cs.map .char ++ [.eol]))) _ = _
    rw [matchAll_seq]
    cases inp with
    | nil => simp [matchAll_char_nil]
    | cons d ds =>
      by_cases hd : d = c
      · subst hd
        rw [matchAll_char_same]
        simp only [List.flatMap_cons, List.flatMap_nil, List.append_nil, ih]
        by_cases hds : ds = cs
        · simp [hds, Nat.add_assoc, Nat.add_comm 1]
        · simp [hds]
      · rw [matchAll_char_other _ _ _ _ _ hd]
        simp [hd]

/-- A pattern that starts with `^` finds nothing from a later position on. -/
theorem search_bol_later (R : Regex) (n : Nat) (cs : List Char) :
    ∀ pos, 0 < pos → search ⟨.seq .bol R, n⟩ pos cs = none := by
  induction cs with
  | nil =>
    intro pos hpos
    have : pos ≠ 0 := by omega
    simp [search, matchAt, matchAll, this]
  | cons c cs ih =>
    intro pos hpos
    have : pos ≠ 0 := by omega
    rw [search]
    simp only [matchAt, matchAll, this, if_false, List.flatMap_nil]
    exact ih (pos + 1) (by omega)

end regexp

/-- The anchored pattern of a text without metacharacters finds the text
itself and nothing else. -/
theorem findStringSubmatch_literal (t : List Char) (p : String) :
    regexp.FindStringSubmatch ⟨regexp.mkSeq (.bol :: t.map .char ++ [.eol]), 0⟩ p
      = if p.data = t then some [p] else none := by
  have hall : regexp.matchAll (regexp.mkSeq (.bol :: t.map .char ++ [.eol]))
      ⟨0, p.data, List.replicate 0 none⟩
      = if p.data = t then [⟨0 + t.length, [], List.replicate 0 none⟩] else [] := by
    rw [List.cons_append, regexp.mkSeq, regexp.matchAll_seq]
    have hbol : regexp.matchAll .bol ⟨0, p.data, List.replicate 0 none⟩
        = [⟨0, p.data, List.replicate 0 none⟩] := by
      simp [regexp.matchAll]
    rw [hbol]
    simp only [List.flatMap_cons, List.flatMap_nil, List.append_nil]
    exact regexp.matchAll_literal_eol t 0 p.data _
  have hat : regexp.matchAt ⟨regexp.mkSeq (.bol :: t.map .char ++ [.eol]), 0⟩ 0 p.data
      = if p.data = t then some ⟨0, p.data, [], []⟩ else none := by
    unfold regexp.matchAt
    simp only [hall]
    by_cases h : p.data = t
    · simp [h]
    · simp [h]
  have hsearch : regexp.search ⟨regexp.mkSeq (.bol :: t.map .char ++ [.eol]), 0⟩ 0 p.data
      = if p.data = t then some ⟨0, p.data, [], []⟩ else none := by
    cases hp : p.data with
    | nil =>
      rw [hp] at hat
      rw [regexp.search, hat]
    | cons c cs =>
      rw [hp] at hat
      rw [regexp.search, hat]
      by_cases h : c :: cs = t
      · simp [h]
      · simp only [h, if_false]
        exact regexp.search_bol_later _ 0 cs 1 (by omega)
  unfold regexp.FindStringSubmatch
  rw [hsearch]
  by_cases h : p.data = t
  · simp only [h, if_true, Option.map_some', regexp.Match.strings, List.map_nil]
    rw [← h]
  · simp [h]

/-- In a text without an opening brace the placeholder expression finds
nothing. -/
theorem pieces_literal (t : List Char) (ht : ∀ c ∈ t, c ≠ '{') :
    regexp.pieces placeholderRe 0 0 false t = t.map .text := by
  obtain ⟨adj', h⟩ := pieces_literal_run t [] ht 0 false
  rw [List.append_nil] at h
  rw [h, regexp.pieces_nil _ _ _ _ (matchAt_placeholder_nil _), List.append_nil]

theorem not_brace_of_not_meta (t : List Char) (ht : ∀ c ∈ t, c ∉ regexMeta) :
    ∀ c ∈ t, c ≠ '{' := by
  intro c hc h
  have := ht c hc
  rw [h] at this
  exact this (by decide)

/-- What `addRoute` stores for a template without metacharacters: the pattern
is the template between the anchors and there is no variable. -/
theorem addRoute_literal (router : Router) (method : String) (t : String)
    (handlers : List RouteHandler) (ht : ∀ c ∈ t.data, c ∉ regexMeta) :
    (addRoute router method t handlers).routes
      = router.routes ++
        [{ Method := method, URI := normalizeURLSlashes t, Handlers := handlers,
           pattern := "^" ++ t ++ "$", «variables» := [] }] := by
  have hp := pieces_literal t.data (not_brace_of_not_meta t.data ht)
  have h1 : regexp.ReplaceAllString placeholderRe t "([^\\/]+?)" = t := by
    unfold regexp.ReplaceAllString
    rw [hp, flatMap_text _ (fun _ => rfl)]
  have h2 : regexp.FindAllStringSubmatch placeholderRe t = [] := by
    unfold regexp.FindAllStringSubmatch
    rw [hp, filterMap_text _ (fun _ => rfl)]
  unfold addRoute
  simp only [h1, h2, List.map_nil]

/-- The pattern of a template without metacharacters compiles to its
characters between the anchors. -/
theorem compile_literal (t : String) (ht : ∀ c ∈ t.data, c ∉ regexMeta) :
    regexp.compile ("^" ++ t ++ "$")
      = .ok ⟨regexp.mkSeq (.bol :: t.data.map .char ++ [.eol]), 0⟩ := by
  have hdata : ("^" ++ t ++ "$").data = '^' :: (t.data ++ ['$']) := by
    simp [String.data_append]
  unfold regexp.compile
  rw [hdata, regexp.run]
  have h1 : regexp.step regexp.PState.init '^'
      = .ok ⟨⟨none, [], [.bol]⟩, [], 0, .normal⟩ := by rfl
  rw [h1]
  simp only
  rw [regexp.run_append, regexp.run_literals t.data ht]
  simp only
  have h2 : ∀ items : List regexp.Regex,
      regexp.run ⟨⟨none, [], items⟩, [], 0, .normal⟩ ['$']
        = .ok ⟨⟨none, [], .eol :: items⟩, [], 0, .normal⟩ := by
    intro items; rfl
  rw [h2]
  simp [regexp.finish, regexp.closeFrame, regexp.mkAlt]

/-- A route whose pattern is a text without metacharacters between the
anchors is matched by that text and by no other path. -/
theorem matchURL_literal (r : Route) (t : String) (ht : ∀ c ∈ t.data, c ∉ regexMeta)
    (hr : r.pattern = "^" ++ t ++ "$") (p : String) :
    matchURL r p = .ok (if p = t then [p] else []) := by
  unfold matchURL
  rw [hr, compile_literal t ht]
  simp only [findStringSubmatch_literal]
  by_cases h : p = t
  · simp [h]
  · have h' : ¬ p.data = t.data := fun e => h (String.ext e)
    simp [h, h']

theorem patternMatches_literal (r : Route) (t : String) (ht : ∀ c ∈ t.data, c ∉ regexMeta)
    (hr : r.pattern = "^" ++ t ++ "$") (p : String) : PatternMatches r p ↔ p = t := by
  unfold PatternMatches
  rw [matchURL_literal r t ht hr p]
  by_cases h : p = t
  · simp [h]
  · simp [h]

/-- C20, counterexample: the template `/a.c` is placeholder-free and
normalized; its pattern `^/a.c$` matches the path `/abc`, the dot standing
for any character.  The pattern of the template `/a+b` does not match the
path `/a+b`. -/
theorem C20_counterexample :
    (Initialize.Get "/a.c" [handlerGet]).routes.map (fun r => (r.URI, r.pattern, r.«variables»))
      = [("/a.c", "^/a.c$", [])] ∧
    (∀ r ∈ (Initialize.Get "/a.c" [handlerGet]).routes, PatternMatches r "/abc") ∧
    (∀ r ∈ (Initialize.Get "/a+b" [handlerGet]).routes, ¬ PatternMatches r "/a+b") := by
  decide

/-- C20, amended: for a template free of regular-expression metacharacters
(so without placeholders), the route `addRoute` appends has a pattern that
compiles, and it matches a path exactly when the path is the template,
character for character. -/
theorem C20_metachar_free_template_matches_itself_only (router : Router) (method t : String)
    (handlers : List RouteHandler) (ht : ∀ c ∈ t.data, c ∉ regexMeta) :
    ∃ r, (addRoute router method t handlers).routes = router.routes ++ [r] ∧
      r.pattern = "^" ++ t ++ "$" ∧ Compiles r ∧ ∀ p : String, PatternMatches r p ↔ p = t := by
  refine ⟨_, addRoute_literal router method t handlers ht, rfl,
    ⟨_, compile_literal t ht⟩, fun p => patternMatches_literal _ t ht rfl p⟩

/-- C20, witness of the amended statement on the template `/users`. -/
theorem C20_witness :
    ∃ r, (addRoute Initialize "GET" "/users" [handlerGet]).routes = Initialize.routes ++ [r] ∧
      r.pattern = "^" ++ "/users" ++ "$" ∧ Compiles r ∧
      ∀ p : String, PatternMatches r p ↔ p = "/users" :=
  C20_metachar_free_template_matches_itself_only Initialize "GET" "/users" [handlerGet]
    (by decide)

/-! ## Group routes -/

theorem TrimPrefix_slash_append (x : String) : TrimPrefix ("/" ++ x) "/" = x := by
  have hpre : List.isPrefixOf "/".data ("/" ++ x).data = true := by
    rw [List.isPrefixOf_iff_prefix]
    exact ⟨x.data, by simp [String.data_append]⟩
  simp only [TrimPrefix, hpre, if_true]
  apply String.ext
  simp [String.data_append]

theorem mem_TrimSuffix_slash (s : String) (c : Char) (h : c ∈ (TrimSuffix s "/").data) :
    c ∈ s.data := by
  rcases TrimSuffix_slash_cases s with ⟨l0, hl0, ht⟩ | ⟨_, ht⟩
  · rw [ht] at h
    rw [hl0]
    exact List.mem_append_left _ h
  · rwa [ht] at h

theorem mem_TrimPrefix_slash (s : String) (c : Char) (h : c ∈ (TrimPrefix s "/").data) :
    c ∈ s.data := by
  rcases TrimPrefix_slash_cases s with ⟨r, hr, ht⟩ | ⟨_, ht⟩
  · rw [ht] at h
    rw [hr]
    exact List.mem_cons_of_mem _ h
  · rwa [ht] at h

/-- The path under which `Use` registers a group route is the prefix
followed by the route's normalized path. -/
theorem use_path (P p : String) :
    P ++ "/" ++ TrimPrefix (normalizeURLSlashes p) "/" = P ++ normalizeURLSlashes p := by
  have h : normalizeURLSlashes p = "/" ++ TrimPrefix (TrimSuffix p "/") "/" := rfl
  rw [h, TrimPrefix_slash_append, String.append_assoc]

theorem normalizeURLSlashes_no_meta (p : String) (hp : ∀ c ∈ p.data, c ∉ regexMeta) :
    ∀ c ∈ (normalizeURLSlashes p).data, c ∉ regexMeta := by
  intro c hc
  rw [normalizeURLSlashes_data] at hc
  rcases List.mem_cons.mp hc with h | h
  · rw [h]; decide
  · exact hp c (mem_TrimSuffix_slash _ _ (mem_TrimPrefix_slash _ _ h))

/-- Merging a group with one route whose path and prefix have no
metacharacters: the receiver gets one route, for the prefix followed by the
normalized path, with the middleware in front of the route's handlers. -/
theorem use_single_literal (P p m : String) (M H : List RouteHandler) (spare : Nat)
    (hP : ∀ c ∈ P.data, c ∉ regexMeta) (hp : ∀ c ∈ p.data, c ∉ regexMeta) :
    (Initialize.Use (addRoute (Group ⟨P, M, spare⟩) m p H)).routes
      = [{ Method := m, URI := normalizeURLSlashes (P ++ normalizeURLSlashes p),
           Handlers := M ++ H, pattern := "^" ++ (P ++ normalizeURLSlashes p) ++ "$",
           «variables» := [] }] := by
  have hcomp : ∀ c ∈ (P ++ normalizeURLSlashes p).data, c ∉ regexMeta := by
    intro c hc
    rw [String.data_append] at hc
    rcases List.mem_append.mp hc with h | h
    · exact hP c h
    · exact normalizeURLSlashes_no_meta p hp c h
  have hgroup := addRoute_literal (Group ⟨P, M, spare⟩) m p H hp
  have hchain : (if H.length ≤ spare then
      M ++ (if H.length ≤ spare then H ++ ([] : List RouteHandler).drop H.length else []).take
        H.length else M ++ H) = M ++ H := by
    by_cases h : H.length ≤ spare
    · simp [h]
    · simp [h]
  have hg : (addRoute (Group ⟨P, M, spare⟩) m p H).group = ⟨P, M, spare⟩ := rfl
  have hfinal := addRoute_literal Initialize m (P ++ normalizeURLSlashes p) (M ++ H) hcomp
  unfold Router.Use
  rw [hgroup, hg]
  simp only [Group, Initialize, List.nil_append, List.foldl_cons, List.foldl_nil,
    spareAfterAppends, use_path, hchain]
  simpa [Initialize] using hfinal

/-- A table of one route whose pattern is a text without metacharacters,
asked for that text with the route's method, returns the route's handlers
and binds nothing. -/
theorem getHandlerForRoute_single_literal (r : Route) (t : String)
    (ht : ∀ c ∈ t.data, c ∉ regexMeta) (hr : r.pattern = "^" ++ t ++ "$")
    (hv : r.«variables» = []) (ctx : Context) (hm : ctx.Method = r.Method) (hu : ctx.URI = t) :
    getHandlerForRoute ctx [r] = .ok (r.Handlers, none, { ctx with Params := [] }) := by
  have hmu := matchURL_literal r t ht hr ctx.URI
  simp only [hu, if_true] at hmu
  simp [getHandlerForRoute, getHandlerForRouteLoop, getMatchForMethod, hu, hmu, hm, hv,
    mapURLParams, mapURLParamsLoop]

/-- A group with prefix `P` and middleware `M` holds one route with method
`m`, path `p` and handlers `H`, `P` and `p` free of regular-expression
metacharacters, and is merged into an empty router by `Use`.  A request with
method `m` whose path is `P` followed by the normalized `p` is matched and
gets the chain `M ++ H`, nothing being bound; that path is what
`createContext` yields for a request with the same raw path when `P` starts
with a slash and the path does not end with one. -/
theorem use_single_route_reachable (P p m : String) (M H : List RouteHandler) (spare : Nat)
    (hP : ∀ c ∈ P.data, c ∉ regexMeta) (hp : ∀ c ∈ p.data, c ∉ regexMeta) :
    (∀ ctx : Context, ctx.Method = m → ctx.URI = P ++ normalizeURLSlashes p →
      getHandlerForRoute ctx (Initialize.Use (addRoute (Group ⟨P, M, spare⟩) m p H)).routes
        = .ok (M ++ H, none, { ctx with Params := [] })) ∧
    (∀ (response : ResponseWriter) (request : Request) (cs : List Char),
      request.Method = m → request.URLPath = P ++ normalizeURLSlashes p →
      P.data = '/' :: cs → (P ++ normalizeURLSlashes p).data.getLast? ≠ some '/' →
      getHandlerForRoute (createContext response request)
          (Initialize.Use (addRoute (Group ⟨P, M, spare⟩) m p H)).routes
        = .ok (M ++ H, none, { createContext response request with Params := [] })) := by
  have hcomp : ∀ c ∈ (P ++ normalizeURLSlashes p).data, c ∉ regexMeta := by
    intro c hc
    rw [String.data_append] at hc
    rcases List.mem_append.mp hc with h | h
    · exact hP c h
    · exact normalizeURLSlashes_no_meta p hp c h
  have hall : ∀ ctx : Context, ctx.Method = m → ctx.URI = P ++ normalizeURLSlashes p →
      getHandlerForRoute ctx (Initialize.Use (addRoute (Group ⟨P, M, spare⟩) m p H)).routes
        = .ok (M ++ H, none, { ctx with Params := [] }) := by
    intro ctx hm hu
    rw [use_single_literal P p m M H spare hP hp]
    exact getHandlerForRoute_single_literal _ (P ++ normalizeURLSlashes p) hcomp rfl rfl ctx hm hu
  refine ⟨hall, ?_⟩
  intro response request cs hm hpath hhead hlast
  apply hall _ hm
  rw [createContext_URI_normalized response request (cs ++ (normalizeURLSlashes p).data)
    (by rw [hpath, String.data_append, hhead]; rfl) (by rw [hpath]; exact hlast), hpath]

/-- C11, failing input: the group has the prefix `/api/` and the route
`POST /items`, and is merged into an empty router by `Use`.  The route is
registered under `/api//items`: the request `POST /api/items` is answered
with Not-Found, a 404 response being written, and so is a request for
`/api///items`, which is what `normalizeURLSlashes` makes of prefix, slash
and path put together.  The group root `/` under the prefix `/api` and the
route `/items` under the prefix `api` are not reached either.  With the
prefix `/api` the route `POST /items` is reached at `/api/items`, with the
middleware before the route's handler. -/
theorem C11_group_route_not_reachable :
    (Initialize.Use apiSlashItemsGroup).routes.map (fun r => (r.Method, r.URI, r.pattern))
      = [("POST", "/api//items", "^/api//items$")] ∧
    getHandlerForRoute (sampleContext "POST" "/api/items") (Initialize.Use apiSlashItemsGroup).routes
      = .ok ([], some ⟨"Not Found", 404, none⟩, sampleContext "POST" "/api/items") ∧
    (∀ enc : Encoders,
      (ServeHTTP enc (Initialize.Use apiSlashItemsGroup) ⟨[], []⟩
          (sampleRequest "POST" "/api/items")).toOption.map
        (fun ctx => (ctx.responseSent, ctx.Res.wire.map (fun t => t.status)))
        = some (true, [404])) ∧
    normalizeURLSlashes ("/api/" ++ "/" ++ "/items") = "/api///items" ∧
    getHandlerForRoute (sampleContext "POST" "/api///items")
        (Initialize.Use apiSlashItemsGroup).routes
      = .ok ([], some ⟨"Not Found", 404, none⟩, sampleContext "POST" "/api///items") ∧
    (Initialize.Use apiRootGroup).routes.map (fun r => (r.Method, r.URI, r.pattern))
      = [("GET", "/api", "^/api/$")] ∧
    normalizeURLSlashes ("/api" ++ "/" ++ "/") = "/api/" ∧
    getHandlerForRoute (sampleContext "GET" "/api/") (Initialize.Use apiRootGroup).routes
      = .ok ([], some ⟨"Not Found", 404, none⟩, sampleContext "GET" "/api/") ∧
    getHandlerForRoute (sampleContext "GET" "/api") (Initialize.Use apiRootGroup).routes
      = .ok ([], some ⟨"Not Found", 404, none⟩, sampleContext "GET" "/api") ∧
    (Initialize.Use apiBareGroup).routes.map (fun r => (r.Method, r.URI, r.pattern))
      = [("POST", "/api/items", "^api/items$")] ∧
    getHandlerForRoute (sampleContext "POST" "/api/items") (Initialize.Use apiBareGroup).routes
      = .ok ([], some ⟨"Not Found", 404, none⟩, sampleContext "POST" "/api/items") ∧
    getHandlerForRoute (sampleContext "POST" "/api/items") (Initialize.Use apiItemsGroup).routes
      = .ok ([middlewareAuth, handlerGet], none,
          { sampleContext "POST" "/api/items" with Params := [] }) :=
  ⟨by decide, rfl, fun _ => rfl, by decide, rfl, by decide, by decide, rfl, rfl, by decide, rfl,
    rfl⟩

/-! ## Capture groups and variables -/

/-- Parsing the pattern text of clean stretches adds one capture group per
placeholder and leaves the parser between items. -/
theorem run_clean_pieces {β : Type} (g : regexp.Piece → List Char)
    (f : regexp.Piece → Option β) (hg1 : ∀ c, g (.text c) = [c])
    (hg2 : ∀ m, g (.matched m) = replacementText.data) (hf1 : ∀ c, f (.text c) = none)
    (hf2 : ∀ m, ∃ b, f (.matched m) = some b) (ps : List regexp.Piece)
    (hclean : ∀ p ∈ ps, cleanPiece p = true) :
    ∀ (top : regexp.Frame) (parents : List regexp.Frame) (k : Nat),
      ∃ items, regexp.run ⟨top, parents, k, .normal⟩ (ps.flatMap g)
        = .ok ⟨{ top with items := items ++ top.items }, parents,
            k + (ps.filterMap f).length, .normal⟩ := by
  induction ps with
  | nil => intro top parents k; exact ⟨[], rfl⟩
  | cons p ps ih =>
    intro top parents k
    have hrest : ∀ q ∈ ps, cleanPiece q = true := fun q hq => hclean q (List.mem_cons_of_mem _ hq)
    cases p with
    | text c =>
      have hc : c ∉ regexMeta := by
        have := hclean (.text c) (List.mem_cons_self _ _)
        simpa [cleanPiece] using this
      obtain ⟨items, hitems⟩ := ih hrest { top with items := .char c :: top.items } parents k
      refine ⟨items ++ [.char c], ?_⟩
      rw [List.flatMap_cons, hg1, List.singleton_append, regexp.run,
        regexp.step_literal top parents k c hc]
      simp only
      rw [hitems]
      simp [List.filterMap_cons, hf1]
    | matched m =>
      obtain ⟨b, hb⟩ := hf2 m
      obtain ⟨items, hitems⟩ :=
        ih hrest { top with items := placeholderGroup (k + 1) :: top.items } parents (k + 1)
      refine ⟨items ++ [placeholderGroup (k + 1)], ?_⟩
      rw [List.flatMap_cons, hg2, regexp.run_append, regexp.run_placeholderGroup]
      simp only
      rw [hitems]
      simp [List.filterMap_cons, hb, Nat.add_assoc, Nat.add_comm 1]

/-- For a clean template the route `addRoute` appends has a pattern that
compiles with one capture group per placeholder, and one variable per
placeholder. -/
theorem addRoute_clean (router : Router) (method path : String) (handlers : List RouteHandler)
    (hclean : CleanTemplate path) :
    ∃ r re, (addRoute router method path handlers).routes = router.routes ++ [r] ∧
      r.Method = method ∧ r.Handlers = handlers ∧
      r.«variables».length = placeholderCount path ∧
      regexp.compile r.pattern = .ok re ∧ re.ncap = placeholderCount path := by
  obtain ⟨items, hitems⟩ := run_clean_pieces
    (fun p => match p with
      | .text c => [c]
      | .matched _ => "([^\\/]+?)".data)
    (fun p => match p with
      | .text _ => none
      | .matched m => some m.strings)
    (fun _ => rfl) (fun _ => rfl) (fun _ => rfl) (fun m => ⟨_, rfl⟩)
    (regexp.pieces placeholderRe 0 0 false path.data) hclean ⟨none, [], [.bol]⟩ [] 0
  have hcompile : regexp.compile
      ("^" ++ regexp.ReplaceAllString placeholderRe path "([^\\/]+?)" ++ "$")
      = .ok ⟨regexp.mkSeq ((.eol :: (items ++ [.bol])).reverse), placeholderCount path⟩ := by
    have hdata : ("^" ++ regexp.ReplaceAllString placeholderRe path "([^\\/]+?)" ++ "$").data
        = '^' :: ((regexp.ReplaceAllString placeholderRe path "([^\\/]+?)").data ++ ['$']) := by
      simp [String.data_append]
    unfold regexp.compile
    rw [hdata, regexp.run]
    have h1 : regexp.step regexp.PState.init '^'
        = .ok ⟨⟨none, [], [.bol]⟩, [], 0, .normal⟩ := by rfl
    rw [h1]
    simp only
    rw [regexp.run_append]
    have hrep : (regexp.ReplaceAllString placeholderRe path "([^\\/]+?)").data
        = (regexp.pieces placeholderRe 0 0 false path.data).flatMap (fun p => match p with
            | .text c => [c]
            | .matched _ => "([^\\/]+?)".data) := rfl
    rw [hrep, hitems]
    simp only
    have h2 : ∀ (its : List regexp.Regex) (n : Nat),
        regexp.run ⟨⟨none, [], its⟩, [], n, .normal⟩ ['$']
          = .ok ⟨⟨none, [], .eol :: its⟩, [], n, .normal⟩ := by
      intro its n; rfl
    rw [h2]
    simp [regexp.finish, regexp.closeFrame, regexp.mkAlt, placeholderCount,
      regexp.FindAllStringSubmatch]
  refine ⟨_, _, rfl, rfl, rfl, ?_, hcompile, rfl⟩
  simp [placeholderCount]

theorem captureInvariant_addRoute (router : Router) (method path : String)
    (handlers : List RouteHandler) (hclean : CleanTemplate path)
    (hinv : CaptureInvariant router) :
    CaptureInvariant (addRoute router method path handlers) := by
  obtain ⟨r, re, hroutes, _, _, hvars, hre, hncap⟩ :=
    addRoute_clean router method path handlers hclean
  intro q hq
  rw [hroutes] at hq
  rcases List.mem_append.mp hq with h | h
  · exact hinv q h
  · rw [List.mem_singleton] at h
    subst h
    exact ⟨re, hre, by rw [hncap, hvars]⟩

theorem captureInvariant_foldl (pathOf : Route → String) (hsOf : Route → List RouteHandler)
    (rs : List Route) (hclean : ∀ route ∈ rs, CleanTemplate (pathOf route)) :
    ∀ router : Router, CaptureInvariant router →
      CaptureInvariant (rs.foldl (fun (router : Router) (route : Route) =>
        addRoute router route.Method (pathOf route) (hsOf route)) router) := by
  induction rs with
  | nil => intro router h; exact h
  | cons r rs ih =>
    intro router h
    rw [List.foldl_cons]
    exact ih (fun q hq => hclean q (List.mem_cons_of_mem _ hq)) _
      (captureInvariant_addRoute router r.Method (pathOf r) (hsOf r)
        (hclean r (List.mem_cons_self _ _)) h)

/-- C17, counterexample: the template `/a(b)/{id}` has one placeholder and
`addRoute` stores one variable, but the compiled pattern has two capture
groups; the pattern of the template `/a(` does not compile at all. -/
theorem C17_counterexample :
    (Initialize.Get "/a(b)/{id}" [handlerGet]).routes.map (fun r => (r.pattern, r.«variables»))
      = [("^/a(b)/([^\\/]+?)$", ["id"])] ∧
    placeholderCount "/a(b)/{id}" = 1 ∧
    (regexp.compile "^/a(b)/([^\\/]+?)$").toOption.map (fun re => re.ncap) = some 2 ∧
    (Initialize.Get "/a(" [handlerGet]).routes.map (fun r => r.pattern) = ["^/a($"] ∧
    (regexp.compile "^/a($").toOption.map (fun re => re.ncap) = none := by
  decide

/-- C17, amended: in the empty table, and after `addRoute`, `Get`, `Post`,
`Put`, `Delete` or `Use` on a table for which it holds, every route's
pattern compiles with as many capture groups as the route has variables,
provided each template registered (for `Use`, the group prefix, a slash and
the route's path) has no regular-expression metacharacter outside its
placeholders; the route added for such a template has as many variables, and
as many capture groups, as the template has placeholders. -/
theorem C17_captures_equal_variables_on_clean_templates (router : Router) (method path : String)
    (handlers : List RouteHandler) (hclean : CleanTemplate path)
    (hinv : CaptureInvariant router) :
    CaptureInvariant Initialize ∧
    CaptureInvariant (addRoute router method path handlers) ∧
    CaptureInvariant (router.Get path handlers) ∧
    CaptureInvariant (router.Post path handlers) ∧
    CaptureInvariant (router.Put path handlers) ∧
    CaptureInvariant (router.Delete path handlers) ∧
    (∃ r re, (addRoute router method path handlers).routes = router.routes ++ [r] ∧
      r.«variables».length = placeholderCount path ∧
      regexp.compile r.pattern = .ok re ∧ re.ncap = placeholderCount path) ∧
    (∀ groupRouter : Router,
      (∀ route ∈ groupRouter.routes,
        CleanTemplate (groupRouter.group.Prefix ++ "/" ++ TrimPrefix route.URI "/")) →
      CaptureInvariant (router.Use groupRouter)) := by
  refine ⟨?_, captureInvariant_addRoute router method path handlers hclean hinv,
    captureInvariant_addRoute router "GET" path handlers hclean hinv,
    captureInvariant_addRoute router "POST" path handlers hclean hinv,
    captureInvariant_addRoute router "PUT" path handlers hclean hinv,
    captureInvariant_addRoute router "DELETE" path handlers hclean hinv, ?_, ?_⟩
  · intro r hr
    simp [Initialize] at hr
  · obtain ⟨r, re, h1, _, _, h2, h3, h4⟩ := addRoute_clean router method path handlers hclean
    exact ⟨r, re, h1, h2, h3, h4⟩
  · intro groupRouter hg
    unfold Router.Use
    exact captureInvariant_foldl _ _ groupRouter.routes hg router hinv

/-- C17, witness of the amended statement: `/users/{userID}/posts/{postID}`
registered on the table `GET /users/{id}`. -/
theorem C17_witness :
    CaptureInvariant (addRoute usersTable "GET" "/users/{userID}/posts/{postID}" [handlerGet]) ∧
    ∃ r re, (addRoute usersTable "GET" "/users/{userID}/posts/{postID}" [handlerGet]).routes
        = usersTable.routes ++ [r] ∧
      r.«variables».length = placeholderCount "/users/{userID}/posts/{postID}" ∧
      regexp.compile r.pattern = .ok re ∧
      re.ncap = placeholderCount "/users/{userID}/posts/{postID}" :=
  have h := C17_captures_equal_variables_on_clean_templates usersTable "GET"
    "/users/{userID}/posts/{postID}" [handlerGet] (by decide)
    (captureInvariant_addRoute Initialize "GET" "/users/{id}" [handlerGet] (by decide)
      (by intro r hr; simp [Initialize] at hr))
  ⟨h.2.1, h.2.2.2.2.2.2.1⟩

end GoRouter
